import Mathlib

/-!
Verification of the layered configuration-resolution engine of the
`bittensor` repository (files `bittensor/config.py` and
`bittensor/utils/data.py`).

Modelling conventions:
* A Python string is modelled as a list of characters (`Str`), so that the
  list-level lemmas about `splitOn` and `intercalate` apply to the
  dot-path codec.
* A Python value is modelled by the inductive type `Val`: strings,
  booleans, integers, `None`, and dictionaries.  A dictionary is an
  association list in insertion order, mirroring CPython's ordered
  dictionaries; the representation invariant that a dictionary never
  binds a key twice is stated explicitly where a proof needs it.
* `d[k] = v` is `pyinsert` (update in place, else append), `k in d` /
  `d[k]` is `pylookup`, and `dict(items)` is `dictOf`.
* Functions that can raise (`TypeError` while walking a non-dictionary in
  `unflatten_dict`, the tuple-unpacking `ValueError` in
  `__parse_args__`) return `Option` / `Except`, with `none` / `.error`
  for the raised exception.
* The external collaborators (argparse, the YAML loader, the file
  system) are out of scope; the snapshots they produce are taken as
  inputs of the resolution pipeline, exactly as `config.__init__`
  consumes them.
-/

abbrev Str := List Char

inductive Val where
  | vstr : Str → Val
  | vbool : Bool → Val
  | vint : Int → Val
  | vnone : Val
  | vdict : List (Str × Val) → Val

/-- A Python dictionary with string keys (an ordered association list). -/
abbrev D := List (Str × Val)

/-- Python `d[k]` / `k in d`: first (and, for real dictionaries, only)
binding of `k` in `d`. -/
def pylookup {κ α : Type} [DecidableEq κ] (d : List (κ × α)) (k : κ) : Option α :=
  match d with
  | [] => none
  | (k', v) :: t => if k' = k then some v else pylookup t k

/-- Python `d[k] = v`: update the existing binding in place, otherwise
append a new binding at the end. -/
def pyinsert {κ α : Type} [DecidableEq κ] (d : List (κ × α)) (k : κ) (v : α) :
    List (κ × α) :=
  match d with
  | [] => [(k, v)]
  | (k', v') :: t => if k' = k then (k', v) :: t else (k', v') :: pyinsert t k v

/-- Python `dict(items)`: build a dictionary from a list of pairs, later
pairs overriding earlier ones. -/
def dictOf {κ α : Type} [DecidableEq κ] (items : List (κ × α)) : List (κ × α) :=
  items.foldl (fun d kv => pyinsert d kv.1 kv.2) []

/-- `isinstance(v, dict)` is false: the value is a scalar
(string/bool/number/None). -/
def isScalar (v : Val) : Bool :=
  match v with
  | Val.vdict _ => false
  | _ => true

mutual
/-- Python `==` on two values restricted to this value universe:
structural equality on scalars, and order-insensitive dictionary
equality (same key set, `==`-equal values at every key). -/
def pyEqV (x : Val) (y : Val) : Bool :=
  match x, y with
  | Val.vstr a, Val.vstr b => decide (a = b)
  | Val.vbool a, Val.vbool b => decide (a = b)
  | Val.vint a, Val.vint b => decide (a = b)
  | Val.vnone, Val.vnone => true
  | Val.vdict a, Val.vdict b =>
      pyEqSub a b && b.all (fun kv => (pylookup a kv.1).isSome)
  | _, _ => false
termination_by structural x

/-- Every binding of `x` has a `==`-equal binding in `y` (the
one-directional half of Python dictionary equality). -/
def pyEqSub (x : D) (y : D) : Bool :=
  match x with
  | [] => true
  | (k, v) :: t =>
      (match pylookup y k with
       | some w => pyEqV v w
       | none => false) && pyEqSub t y
termination_by structural x
end

/-- Python `==` on two dictionaries: same key set, and `==` values at
every key (insertion order is ignored, as in CPython). -/
def pyEqD (x : D) (y : D) : Bool :=
  pyEqSub x y && y.all (fun kv => (pylookup x kv.1).isSome)

theorem pyEqV_vdict (a b : D) : pyEqV (Val.vdict a) (Val.vdict b) = pyEqD a b := rfl

mutual
/-- Literal structural equality of values (used to obtain decidable
equality on `Val`). -/
def beqVal (x : Val) (y : Val) : Bool :=
  match x, y with
  | Val.vstr a, Val.vstr b => decide (a = b)
  | Val.vbool a, Val.vbool b => decide (a = b)
  | Val.vint a, Val.vint b => decide (a = b)
  | Val.vnone, Val.vnone => true
  | Val.vdict a, Val.vdict b => beqD a b
  | _, _ => false
termination_by structural x

/-- Literal structural equality of dictionaries (same order, same
bindings). -/
def beqD (x : D) (y : D) : Bool :=
  match x, y with
  | [], [] => true
  | (k1, v1) :: t1, (k2, v2) :: t2 => decide (k1 = k2) && beqVal v1 v2 && beqD t1 t2
  | _, _ => false
termination_by structural x
end

mutual
theorem beqVal_iff : ∀ x y : Val, beqVal x y = true ↔ x = y
  | Val.vstr _, Val.vstr _ => by simp [beqVal]
  | Val.vbool _, Val.vbool _ => by simp [beqVal]
  | Val.vint _, Val.vint _ => by simp [beqVal]
  | Val.vnone, Val.vnone => by simp [beqVal]
  | Val.vdict a, Val.vdict b => by simp [beqVal, beqD_iff a b]
  | Val.vstr _, Val.vbool _ => by simp [beqVal]
  | Val.vstr _, Val.vint _ => by simp [beqVal]
  | Val.vstr _, Val.vnone => by simp [beqVal]
  | Val.vstr _, Val.vdict _ => by simp [beqVal]
  | Val.vbool _, Val.vstr _ => by simp [beqVal]
  | Val.vbool _, Val.vint _ => by simp [beqVal]
  | Val.vbool _, Val.vnone => by simp [beqVal]
  | Val.vbool _, Val.vdict _ => by simp [beqVal]
  | Val.vint _, Val.vstr _ => by simp [beqVal]
  | Val.vint _, Val.vbool _ => by simp [beqVal]
  | Val.vint _, Val.vnone => by simp [beqVal]
  | Val.vint _, Val.vdict _ => by simp [beqVal]
  | Val.vnone, Val.vstr _ => by simp [beqVal]
  | Val.vnone, Val.vbool _ => by simp [beqVal]
  | Val.vnone, Val.vint _ => by simp [beqVal]
  | Val.vnone, Val.vdict _ => by simp [beqVal]
  | Val.vdict _, Val.vstr _ => by simp [beqVal]
  | Val.vdict _, Val.vbool _ => by simp [beqVal]
  | Val.vdict _, Val.vint _ => by simp [beqVal]
  | Val.vdict _, Val.vnone => by simp [beqVal]

theorem beqD_iff : ∀ x y : D, beqD x y = true ↔ x = y
  | [], [] => by simp [beqD]
  | (k1, v1) :: t1, (k2, v2) :: t2 => by
      simp only [beqD, Bool.and_eq_true, decide_eq_true_eq,
        beqVal_iff v1 v2, beqD_iff t1 t2, List.cons.injEq, Prod.mk.injEq, and_assoc]
  | [], _ :: _ => by simp [beqD]
  | _ :: _, [] => by simp [beqD]
end

instance : DecidableEq Val := fun a b => decidable_of_iff _ (beqVal_iff a b)

/-! ## `bittensor/utils/data.py` -/

/-- One key of `unflatten_dict`: split on `.`, walk/create the
intermediate nodes, write the value at the last segment.  An
intermediate segment that holds `None` (or is absent) is replaced by a
fresh dictionary; walking into any other non-dictionary raises a
`TypeError` (modelled by `none`). -/
def unflattenInsert (d : D) (parts : List Str) (v : Val) : Option D :=
  match parts with
  | [] => none
  | [last] => some (pyinsert d last v)
  | p :: rest1 :: rest =>
      match pylookup d p with
      | some (Val.vdict sub) =>
          (unflattenInsert sub (rest1 :: rest) v).map (fun sub' => pyinsert d p (Val.vdict sub'))
      | some Val.vnone =>
          (unflattenInsert [] (rest1 :: rest) v).map (fun sub' => pyinsert d p (Val.vdict sub'))
      | none =>
          (unflattenInsert [] (rest1 :: rest) v).map (fun sub' => pyinsert d p (Val.vdict sub'))
      | some _ => none

/-- `unflatten_dict` (`bittensor/utils/data.py`, lines 5-18): convert a
flat dictionary with dot-separated keys to a nested dictionary. -/
def unflatten_dict (flat_dict : List (Str × Val)) : Option D :=
  flat_dict.foldlM (fun d kv => unflattenInsert d (kv.1.splitOn '.') kv.2) []

mutual
/-- The items a single value contributes to `flatten_dict` under its
joined key: a dictionary contributes the items of the recursive
`flatten_dict` call (i.e. of `dict(...)` applied to its own items), any
other value contributes itself. -/
def flattenVal (v : Val) (new_key : Str) : List (Str × Val) :=
  match v with
  | Val.vdict sub => dictOf (flattenItems sub new_key)
  | _ => [(new_key, v)]
termination_by structural v

/-- The `items` list accumulated by `flatten_dict` for a node under the
joined key `parent` (separator hard-wired to `.` as at every call
site). -/
def flattenItems (nested : D) (parent : Str) : List (Str × Val) :=
  match nested with
  | [] => []
  | (k, v) :: t =>
      let new_key := if parent = [] then k else parent ++ '.' :: k
      flattenVal v new_key ++ flattenItems t parent
termination_by structural nested
end

/-- `flatten_dict` (`bittensor/utils/data.py`, lines 37-46): convert a
nested dictionary to a flat dictionary with dot-separated keys. -/
def flatten_dict (nested_dict : D) : D :=
  dictOf (flattenItems nested_dict [])

mutual
/-- The merged value stored by `deep_merge` at a key present in both
dictionaries: recurse when both values are dictionaries, otherwise the
right value wins. -/
def deepMergeVal (x : Val) (y : Val) : Val :=
  match x, y with
  | Val.vdict a, Val.vdict b => Val.vdict (deep_merge a b)
  | _, b => b
termination_by structural y

/-- `deep_merge` (`bittensor/utils/data.py`, lines 49-59, identical to
the method `config.deep_merge`, `bittensor/config.py` lines 407-421):
recursively merges `dict2` into a copy of `dict1`; on a shared key the
value of `dict2` wins unless both values are dictionaries, in which
case the merge recurses. -/
def deep_merge (dict1 : D) (dict2 : D) : D :=
  match dict2 with
  | [] => dict1
  | (k, v) :: t =>
      let merged :=
        match pylookup dict1 k with
        | some found => pyinsert dict1 k (deepMergeVal found v)
        | none => pyinsert dict1 k v
      deep_merge merged t
termination_by structural dict2
end

mutual
/-- The value stored by `config._merge` at a key present in both
configurations (`bittensor/config.py`, lines 392-405): recurse when
both are dictionaries, otherwise the second configuration wins. -/
def cfgMergeVal (x : Val) (y : Val) : Val :=
  match x, y with
  | Val.vdict a, Val.vdict b => Val.vdict (config_merge a b)
  | _, b => b
termination_by structural y

/-- `config._merge` / `config.merge` (`bittensor/config.py`, lines
392-405 and 423-430): merge `b` into `a`; on conflict the value from
`b` takes precedence, recursing through dictionary pairs.  (The source
mutates `a` in place; the pure model returns the updated dictionary.) -/
def config_merge (a : D) (b : D) : D :=
  match b with
  | [] => a
  | (k, v) :: t =>
      let a' :=
        match pylookup a k with
        | some found => pyinsert a k (cfgMergeVal found v)
        | none => pyinsert a k v
      config_merge a' t
termination_by structural b
end

/-! ## `bittensor/config.py`: source loaders, parser boundary, pipeline -/

/-- `config.load_config_from_env_vars` (`bittensor/config.py`, lines
489-498): for every environment variable whose name starts with `BT_`,
drop the first **six** characters of the name, lowercase it, replace
`_` by `.`, and store the raw string value under the resulting key in
the (class-scoped) `env_config` dictionary, which is threaded through
explicitly here.  (`str.lower` is modelled by `Char.toLower`, which
agrees with Python on the ASCII names used for environment
variables.) -/
def load_config_from_env_vars (env_config : D) (environ : List (Str × Str)) : D :=
  let env_vars := environ.filter (fun kv => (("BT_").data).isPrefixOf kv.1)
  env_vars.foldl
    (fun ec kv =>
      let key := (kv.1.drop 6).map Char.toLower
      let key2 := key.map (fun c => if c = '_' then '.' else c)
      pyinsert ec key2 (Val.vstr kv.2))
    env_config

/-- One declared argparse action, as far as the config core reads it:
its destination name and whether it is required. -/
structure OptionSpec where
  dest : Str
  required : Bool
deriving DecidableEq

/-- Python `needle in haystack` on strings: substring containment. -/
def substrIn (needle haystack : Str) : Bool :=
  haystack.tails.any (fun t => needle.isPrefixOf t)

/-- `config.__get_required_args_from_actions` (`bittensor/config.py`,
lines 479-487): the `--`/`-`-prefixed destination name of every
required action. -/
def get_required_args_from_actions (actions : List OptionSpec) : List Str :=
  (actions.filter (fun a => a.required)).map
    (fun a => (if a.dest.length > 1 then ("--").data else ("-").data) ++ a.dest)

/-- `config.__check_for_missing_required_args` (`bittensor/config.py`,
lines 472-477): a required flag is reported missing iff it occurs as a
substring (`arg in s`) of **no** raw token. -/
def check_for_missing_required_args (actions : List OptionSpec) (args : List Str) :
    List Str :=
  (get_required_args_from_actions actions).filter
    (fun arg => ! args.any (fun s => substrIn arg s))

/-- The loop over `unrecognized` tokens in `config.__parse_args__`
(`bittensor/config.py`, lines 321-342), non-strict branch: a `--name`
token whose suffix is a declared destination only flips that boolean
(no overflow entry); any other `--key` / `--key=value` token is stored
in the (class-scoped) `params_config` overflow dictionary, with value
`True` when the token has no `=`.  `key, value = unrec[2:].split("=")`
unpacks exactly two parts, so a body with two or more `=` raises a
`ValueError` (modelled by `none`). -/
def parse_args_capture (params_list : List Str) (params_config : D)
    (unrecognized : List Str) : Option D :=
  match unrecognized with
  | [] => some params_config
  | unrec :: rest =>
      if (("--").data).isPrefixOf unrec ∧ unrec.drop 2 ∈ params_list then
        parse_args_capture params_list params_config rest
      else if (("--").data).isPrefixOf unrec then
        let body := unrec.drop 2
        if '=' ∈ body then
          match body.splitOn '=' with
          | [key, value] =>
              parse_args_capture params_list (pyinsert params_config key (Val.vstr value)) rest
          | _ => none
        else
          parse_args_capture params_list (pyinsert params_config body (Val.vbool true)) rest
      else
        parse_args_capture params_list params_config rest

/-- One dotted key of `config.__split_params__` (`bittensor/config.py`,
lines 281-299): walk/create intermediate nodes (an existing `None` is
replaced by a fresh config, any other non-dictionary on the walk
fails) and write the value at the last segment. -/
def splitParamsInsert (c : D) (parts : List Str) (v : Val) : Option D :=
  match parts with
  | [] => none
  | [last] => some (pyinsert c last v)
  | p :: rest1 :: rest =>
      match pylookup c p with
      | some (Val.vdict sub) =>
          (splitParamsInsert sub (rest1 :: rest) v).map (fun sub' => pyinsert c p (Val.vdict sub'))
      | some Val.vnone =>
          (splitParamsInsert [] (rest1 :: rest) v).map (fun sub' => pyinsert c p (Val.vdict sub'))
      | none =>
          (splitParamsInsert [] (rest1 :: rest) v).map (fun sub' => pyinsert c p (Val.vdict sub'))
      | some _ => none

/-- `config.__split_params__` (`bittensor/config.py`, lines 281-299):
split every parsed parameter on dot syntax and write it into the
config. -/
def split_params (params : D) (cfg : D) : Option D :=
  params.foldlM (fun c kv => splitParamsInsert c (kv.1.splitOn '.') kv.2) cfg

/-- The failures `config.__init__` can surface in the modelled
fragment: the `ValueError` for missing required arguments (line 137)
and the `TypeError` raised by walking a non-dictionary while
unflattening. -/
inductive ConfigError where
  | missingRequired : List Str → ConfigError
  | typeErr : ConfigError
deriving DecidableEq

/-- The structural defaults merged at `bittensor/config.py` lines
229-234. -/
def bootstrapDefaults : D :=
  [(("profile").data, Val.vdict [(("path").data, Val.vstr (("~/.bittensor/profiles/").data))]),
   (("config").data, Val.vdict [(("path").data, Val.vstr (("~/.bittensor/").data))])]

/-- The resolution pipeline of `config.__init__` (`bittensor/config.py`,
lines 133-261), with the external boundaries taken as inputs: `params`
(best-effort parse, line 152/169), `default_params` (pure-defaults
parse, line 192), `params_no_defaults` (defaults-suppressed parse,
line 224), and the three source snapshots (`env_config`,
`generic_config`, `profile_config`) produced by the loaders.  Steps, in
source order: required-argument check, `__split_params__`, merge of the
bootstrap defaults, `defaults_and_env`, `generic_and_profile`,
`merged_config`, final `self.merge(merged_config)`. -/
def config_resolve (actions : List OptionSpec) (args : List Str)
    (params default_params params_no_defaults : D)
    (env_config generic_config profile_config : D) : Except ConfigError D :=
  let missing := check_for_missing_required_args actions args
  if missing ≠ [] then
    Except.error (ConfigError.missingRequired missing)
  else
    match split_params params [] with
    | none => Except.error ConfigError.typeErr
    | some self0 =>
        let self1 := config_merge self0 bootstrapDefaults
        match unflatten_dict default_params, unflatten_dict env_config with
        | some dp, some ec =>
            let defaults_and_env := deep_merge dp ec
            let self2 := config_merge self1 defaults_and_env
            let generic_and_profile := deep_merge generic_config profile_config
            match unflatten_dict generic_and_profile, unflatten_dict params_no_defaults with
            | some gp, some pnd =>
                let merged_config := deep_merge defaults_and_env (deep_merge gp pnd)
                Except.ok (config_merge self2 merged_config)
            | _, _ => Except.error ConfigError.typeErr
        | _, _ => Except.error ConfigError.typeErr

/-- The is-set map built at `bittensor/config.py` lines 263-279:
initialise every key of the flattened final config to `True`, then
downgrade to `False` every key that also appears in the flattened
pure-defaults dictionary with a `==`-equal value. -/
def build_is_set_map (self_dict : D) (default_params : D) : List (Str × Bool) :=
  let flatten_config := flatten_dict self_dict
  let tmp := flatten_config.foldl (fun t kv => pyinsert t kv.1 true) []
  let flat_defaults := flatten_dict default_params
  flat_defaults.foldl
    (fun t kv =>
      match pylookup t kv.1, pylookup flatten_config kv.1 with
      | some _, some fv => if pyEqV kv.2 fv then pyinsert t kv.1 false else t
      | _, _ => t)  -- the lookup in `flatten_config` cannot miss: `t` only holds its keys
    tmp

/-- `config.is_set` (`bittensor/config.py`, lines 463-470): `False` for
a parameter absent from the map, else the stored flag. -/
def is_set (m : List (Str × Bool)) (param_name : Str) : Bool :=
  match pylookup m param_name with
  | none => false
  | some b => b

/-- Lookup along a segment path: the whole dictionary at `[]`, the value
at a one-segment path, and a walk through dictionary nodes otherwise. -/
def pathLookup (d : D) (p : List Str) : Option Val :=
  match p with
  | [] => some (Val.vdict d)
  | [k] => pylookup d k
  | k :: r :: rest =>
      match pylookup d k with
      | some (Val.vdict sub) => pathLookup sub (r :: rest)
      | _ => none
termination_by structural p

/-- The scalar stored at a segment path, if that path ends at a leaf. -/
def leafAt (d : D) (p : List Str) : Option Val :=
  match pathLookup d p with
  | some v => if isScalar v then some v else none
  | none => none

/-! ## Basic dictionary lemmas -/

theorem pylookup_pyinsert {κ α : Type} [DecidableEq κ] (d : List (κ × α)) (k k' : κ) (v : α) :
    pylookup (pyinsert d k v) k' = if k = k' then some v else pylookup d k' := by
  induction d with
  | nil => by_cases h : k = k' <;> simp [pyinsert, pylookup, h]
  | cons hd t ih =>
      obtain ⟨k0, v0⟩ := hd
      by_cases h0 : k0 = k
      · subst h0
        by_cases h : k0 = k' <;> simp [pyinsert, pylookup, h]
      · by_cases h : k0 = k'
        · have hne : k ≠ k' := by
            rw [← h]; exact fun hh => h0 hh.symm
          have hne2 : k' ≠ k := fun hh => hne hh.symm
          simp [pyinsert, pylookup, h0, h, hne, hne2]
        · simp [pyinsert, pylookup, h0, h, ih]

theorem pylookup_pyinsert_self {κ α : Type} [DecidableEq κ] (d : List (κ × α)) (k : κ) (v : α) :
    pylookup (pyinsert d k v) k = some v := by
  simp [pylookup_pyinsert]

theorem pylookup_pyinsert_ne {κ α : Type} [DecidableEq κ] (d : List (κ × α)) (k k' : κ) (v : α)
    (h : k ≠ k') : pylookup (pyinsert d k v) k' = pylookup d k' := by
  simp [pylookup_pyinsert, h]

theorem pyinsert_keys {κ α : Type} [DecidableEq κ] (d : List (κ × α)) (k : κ) (v : α) :
    (pyinsert d k v).map Prod.fst =
      if k ∈ d.map Prod.fst then d.map Prod.fst else d.map Prod.fst ++ [k] := by
  induction d with
  | nil => simp [pyinsert]
  | cons hd t ih =>
      obtain ⟨k0, v0⟩ := hd
      by_cases h0 : k0 = k
      · subst h0; simp [pyinsert]
      · have : ¬ k = k0 := fun h => h0 h.symm
        by_cases hm : k ∈ t.map Prod.fst <;> simp [pyinsert, h0, hm, this, ih]

theorem pylookup_eq_none_iff {κ α : Type} [DecidableEq κ] (d : List (κ × α)) (k : κ) :
    pylookup d k = none ↔ k ∉ d.map Prod.fst := by
  induction d with
  | nil => simp [pylookup]
  | cons hd t ih =>
      obtain ⟨k0, v0⟩ := hd
      by_cases h0 : k0 = k
      · subst h0; simp [pylookup]
      · simp only [pylookup, if_neg h0, ih, List.map_cons, List.mem_cons]
        constructor
        · rintro hn (he | hm)
          · exact h0 he.symm
          · exact hn hm
        · intro hn hm
          exact hn (Or.inr hm)

theorem pylookup_isSome_iff {κ α : Type} [DecidableEq κ] (d : List (κ × α)) (k : κ) :
    (pylookup d k).isSome = true ↔ k ∈ d.map Prod.fst := by
  rw [Option.isSome_iff_ne_none, ne_eq, pylookup_eq_none_iff, not_not]

theorem pylookup_append {κ α : Type} [DecidableEq κ] (d1 d2 : List (κ × α)) (k : κ) :
    pylookup (d1 ++ d2) k =
      match pylookup d1 k with
      | some v => some v
      | none => pylookup d2 k := by
  induction d1 with
  | nil => simp [pylookup]
  | cons hd t ih =>
      obtain ⟨k0, v0⟩ := hd
      by_cases h0 : k0 = k <;> simp [pylookup, h0, ih]

theorem pylookup_mem {κ α : Type} [DecidableEq κ] (d : List (κ × α)) (k : κ) (v : α)
    (h : pylookup d k = some v) : (k, v) ∈ d := by
  induction d with
  | nil => simp [pylookup] at h
  | cons hd t ih =>
      obtain ⟨k0, v0⟩ := hd
      by_cases h0 : k0 = k
      · subst h0
        simp [pylookup] at h
        simp [h]
      · simp [pylookup, h0] at h
        exact List.mem_cons_of_mem _ (ih h)

theorem pylookup_of_mem_nodup {κ α : Type} [DecidableEq κ] (d : List (κ × α)) (k : κ) (v : α)
    (hmem : (k, v) ∈ d) (hnd : (d.map Prod.fst).Nodup) : pylookup d k = some v := by
  induction d with
  | nil => simp at hmem
  | cons hd t ih =>
      obtain ⟨k0, v0⟩ := hd
      simp only [List.map_cons, List.nodup_cons] at hnd
      rcases List.mem_cons.mp hmem with h | h
      · obtain ⟨h1, h2⟩ := Prod.mk.injEq .. ▸ h
        subst h1; subst h2
        simp [pylookup]
      · have hk : k0 ≠ k := by
          rintro rfl
          exact hnd.1 (List.mem_map.mpr ⟨(k0, v), h, rfl⟩)
        simp [pylookup, hk]
        exact ih h hnd.2

/-! ## `splitOn` helper lemmas -/

theorem splitOn_no_sep {α : Type} [DecidableEq α] (c : α) (k : List α) (hk : c ∉ k) :
    k.splitOn c = [k] := by
  rw [List.splitOn]
  exact List.splitOnP_eq_single _ _ (fun x hx => by
    simp only [beq_iff_eq]
    rintro rfl
    exact hk hx)

theorem splitOn_sep_append {α : Type} [DecidableEq α] (c : α) (k s : List α) (hk : c ∉ k) :
    (k ++ c :: s).splitOn c = k :: s.splitOn c := by
  rw [List.splitOn, List.splitOnP_first _ _ (fun x hx => by
    simp only [beq_iff_eq]
    rintro rfl
    exact hk hx) c (by simp), ← List.splitOn]

/-! ## Claim C1 -/

/-- C1: with a generic-file snapshot carrying
`profile.path = "/generic/path"`, an environment snapshot carrying
`profile.path = "/env/profile"`, and no token supplying it, the
resolution pipeline of `config.__init__` ends with
`profile.path == "/generic/path"`: the generic-file layer, not the
environment, wins the conflicting path.  This contradicts the claim
(and the repository's own `test_config_merge_order`), which expect
`"/env/profile"`. -/
theorem c1_generic_file_outranks_environment :
    ∃ T, config_resolve [] []
        [(("profile.path").data, Val.vstr (("~/.bittensor/profiles/").data))]
        [(("profile.path").data, Val.vstr (("~/.bittensor/profiles/").data))]
        []
        [(("profile.path").data, Val.vstr (("/env/profile").data))]
        [(("profile.path").data, Val.vstr (("/generic/path").data))]
        [] = Except.ok T
      ∧ pathLookup T [("profile").data, ("path").data]
          = some (Val.vstr (("/generic/path").data))
      ∧ pathLookup T [("profile").data, ("path").data]
          ≠ some (Val.vstr (("/env/profile").data)) := by
  refine ⟨_, rfl, ?_, ?_⟩ <;> decide

/-! ## Claim C2 -/

/-- C2: `load_config_from_env_vars` drops the first **six** characters
of the variable name (`var[6:]`), not the three-character prefix
`BT_`; `BT_TEST_VAR=env_value` therefore lands under the key `t.var`,
and `test.var` (as claimed by the specification and expected by the
repository's `test_load_from_env_vars`) is absent. -/
theorem c2_env_loader_drops_six_characters :
    load_config_from_env_vars [] [(("BT_TEST_VAR").data, ("env_value").data)]
      = [(("t.var").data, Val.vstr (("env_value").data))]
    ∧ pylookup (load_config_from_env_vars [] [(("BT_TEST_VAR").data, ("env_value").data)])
        (("test.var").data) = none := ⟨rfl, rfl⟩

/-! ## Claim C9 -/

/-- C9: the `env_config` dictionary is a class-scoped attribute
(`bittensor/config.py`, line 48) mutated in place by
`load_config_from_env_vars` (line 498); threading that class state
through two constructions shows the second resolution's environment
snapshot still contains — and returns — the entry produced during the
first resolution, even though the second process environment defines
no `BT_` variable at all.  Independent resolutions therefore share
mutable snapshot state, contradicting the claim. -/
theorem c9_env_snapshot_shared_between_resolutions :
    load_config_from_env_vars
        (load_config_from_env_vars [] [(("BT_XXXFOO").data, ("first_value").data)]) []
      = load_config_from_env_vars [] [(("BT_XXXFOO").data, ("first_value").data)]
    ∧ pylookup
        (load_config_from_env_vars
          (load_config_from_env_vars [] [(("BT_XXXFOO").data, ("first_value").data)]) [])
        (("foo").data) = some (Val.vstr (("first_value").data)) := ⟨rfl, rfl⟩

/-! ## Claim C5 -/

/-- C5 counterexample: when the intermediate segment `a` already holds
the non-`None` scalar `"x"`, `unflatten_dict` does **not** silently
replace it with a fresh mapping — it raises a `TypeError` (modelled by
`none`), refuting the claim that the scalar is discarded and no error
is raised. -/
theorem c5_counterexample_scalar_intermediate_raises :
    unflatten_dict [(("a").data, Val.vstr (("x").data)), (("a.b").data, Val.vint 1)]
      = none := by decide

/-- C5 amended: an intermediate segment holding the scalar `None` is
silently replaced by a fresh mapping (the `None` is discarded and the
walk continues); an intermediate segment holding any **other** scalar
makes `unflatten_dict` raise a `TypeError` instead. -/
theorem c5_amended_none_intermediate_replaced :
    ∀ (k s : Str) (w v : Val), ('.') ∉ k → ('.') ∉ s →
      (unflatten_dict [(k, Val.vnone), (k ++ '.' :: s, w)]
          = some [(k, Val.vdict [(s, w)])])
      ∧ (isScalar v = true → v ≠ Val.vnone →
          unflatten_dict [(k, v), (k ++ '.' :: s, w)] = none) := by
  intro k s w v hk hs
  have h1 : k.splitOn '.' = [k] := splitOn_no_sep '.' k hk
  have h2 : (k ++ '.' :: s).splitOn '.' = k :: s.splitOn '.' := splitOn_sep_append '.' k s hk
  have h3 : s.splitOn '.' = [s] := splitOn_no_sep '.' s hs
  constructor
  · simp [unflatten_dict, List.foldlM, h1, h2, h3, unflattenInsert, pylookup, pyinsert]
  · intro hscal hnone
    cases v with
    | vstr a => simp [unflatten_dict, List.foldlM, h1, h2, h3, unflattenInsert, pylookup, pyinsert]
    | vbool a => simp [unflatten_dict, List.foldlM, h1, h2, h3, unflattenInsert, pylookup, pyinsert]
    | vint a => simp [unflatten_dict, List.foldlM, h1, h2, h3, unflattenInsert, pylookup, pyinsert]
    | vnone => exact absurd rfl hnone
    | vdict sub => simp [isScalar] at hscal

/-- Witness for `c5_amended_none_intermediate_replaced` at
`k = "a"`, `s = "b"`, `w = 1`, `v = "x"`. -/
theorem c5_amended_none_intermediate_replaced_witness :
    (unflatten_dict [(("a").data, Val.vnone), (("a.b").data, Val.vint 1)]
        = some [(("a").data, Val.vdict [(("b").data, Val.vint 1)])])
    ∧ unflatten_dict [(("a").data, Val.vstr (("x").data)), (("a.b").data, Val.vint 1)]
        = none := by
  have h := c5_amended_none_intermediate_replaced (("a").data) (("b").data)
    (Val.vint 1) (Val.vstr (("x").data)) (by decide) (by decide)
  exact ⟨h.1, h.2 (by decide) (by decide)⟩

/-! ## Claim C8 -/

/-- C8 counterexample: the unrecognized token `--key=a=b` (value
containing `=`) is **not** captured into the overflow map —
`key, value = unrec[2:].split("=")` unpacks three parts and raises a
`ValueError` (modelled by `none`), refuting the claim that the capture
succeeds for every such token. -/
theorem c8_counterexample_value_containing_equals :
    parse_args_capture [] [] [(("--key=a=b").data)] = none := by decide

/-- C8 amended: an unrecognized `--key=value` token whose key does not
match a declared option and whose value contains no further `=` is
captured as `key ↦ value`, and an unrecognized `--key` token without
`=` is captured as `key ↦ True`; a token whose value itself contains
`=` instead raises a `ValueError` (see the counterexample). -/
theorem c8_amended_overflow_capture :
    ∀ (params_list : List Str) (pc : D) (k v : Str),
      (('=') ∉ k → ('=') ∉ v → (k ++ '=' :: v) ∉ params_list →
        parse_args_capture params_list pc ['-' :: '-' :: (k ++ '=' :: v)]
          = some (pyinsert pc k (Val.vstr v)))
      ∧ (('=') ∉ k → k ∉ params_list →
        parse_args_capture params_list pc ['-' :: '-' :: k]
          = some (pyinsert pc k (Val.vbool true))) := by
  intro params_list pc k v
  constructor
  · intro hk hv hpl
    have hsplit : (k ++ '=' :: v).splitOn '=' = k :: v.splitOn '=' :=
      splitOn_sep_append '=' k v hk
    have hv1 : v.splitOn '=' = [v] := splitOn_no_sep '=' v hv
    simp [parse_args_capture, List.isPrefixOf, hpl, hsplit, hv1]
  · intro hk hpl
    simp [parse_args_capture, List.isPrefixOf, hpl, hk]

/-- Witness for `c8_amended_overflow_capture` at `k = "key"`,
`v = "val"` with no declared options. -/
theorem c8_amended_overflow_capture_witness :
    parse_args_capture [] [] [(("--key=val").data)]
        = some [(("key").data, Val.vstr (("val").data))]
    ∧ parse_args_capture [] [] [(("--flag").data)]
        = some [(("flag").data, Val.vbool true)] := by
  have h1 := (c8_amended_overflow_capture [] [] (("key").data) (("val").data)).1
    (by decide) (by decide) (by decide)
  have h2 := (c8_amended_overflow_capture [] [] (("flag").data) (("val").data)).2
    (by decide) (by decide)
  exact ⟨h1, h2⟩

/-! ## Claims C7 and C10: the missing-required-arguments check -/

/-- C10: the check of `__check_for_missing_required_args` treats a
required flag as supplied whenever its flag string occurs as a
substring of **any** raw token (`arg in s`): such a flag is never
reported missing, and when every required flag is substring-contained
in some token, resolution never fails with the missing-required
error — regardless of snapshots, parses, or declared defaults. -/
theorem c10_substring_counts_as_supplied (actions : List OptionSpec) (args : List Str) :
    (∀ flag, flag ∈ get_required_args_from_actions actions →
      (∃ s ∈ args, substrIn flag s = true) →
      flag ∉ check_for_missing_required_args actions args)
    ∧ ((∀ flag ∈ get_required_args_from_actions actions, ∃ s ∈ args, substrIn flag s = true) →
        ∀ (params default_params params_no_defaults env_config generic_config profile_config : D)
          (ms : List Str),
          config_resolve actions args params default_params params_no_defaults
            env_config generic_config profile_config
            ≠ Except.error (ConfigError.missingRequired ms)) := by
  constructor
  · intro flag hflag hsub hmem
    have h := (List.mem_filter.mp hmem).2
    obtain ⟨s, hs, hsin⟩ := hsub
    rw [Bool.not_eq_true', List.any_eq_false] at h
    exact absurd hsin (by simpa using h s hs)
  · intro hall params default_params params_no_defaults env_config generic_config profile_config ms
    have hnil : check_for_missing_required_args actions args = [] := by
      rw [check_for_missing_required_args, List.filter_eq_nil_iff]
      intro flag hflag
      obtain ⟨s, hs, hsin⟩ := hall flag hflag
      simp only [Bool.not_eq_true', List.any_eq_false, not_forall]
      simp only [Bool.not_eq_true]
      push_neg
      exact ⟨s, hs, by simp [hsin]⟩
    rw [config_resolve, hnil]
    simp only [ne_eq, not_true_eq_false, if_false]
    split
    · simp
    · split
      · split
        · simp
        · simp
      · simp

/-- Witness for `c10_substring_counts_as_supplied`: the single required
option `--required_arg`, and the token list `["--required_argument"]`,
which contains the flag only as a substring of a longer token. -/
theorem c10_substring_counts_as_supplied_witness :
    (("--required_arg").data) ∉ check_for_missing_required_args
        [⟨("required_arg").data, true⟩] [(("--required_argument").data)]
    ∧ config_resolve [⟨("required_arg").data, true⟩] [(("--required_argument").data)]
        [] [] [] [] [] []
        ≠ Except.error (ConfigError.missingRequired [(("--required_arg").data)]) := by
  have h := c10_substring_counts_as_supplied
    [⟨("required_arg").data, true⟩] [(("--required_argument").data)]
  refine ⟨h.1 _ (by decide) ⟨(("--required_argument").data), by simp, by decide⟩,
         h.2 ?_ [] [] [] [] [] [] _⟩
  intro flag hflag
  refine ⟨(("--required_argument").data), by simp, ?_⟩
  have h2 : get_required_args_from_actions [⟨("required_arg").data, true⟩]
      = [(("--required_arg").data)] := by decide
  rw [h2] at hflag
  have h3 : flag = (("--required_arg").data) := by simpa using hflag
  rw [h3]
  decide

/-- C7 counterexample: the required flag `--required_arg` is absent
from the raw token list `["--required_argument"]` (no token equals
it), yet resolution does not fail — it succeeds — because the check
only looks for substring containment.  This refutes the claim that
resolution fails for every token list from which the flag name is
absent. -/
theorem c7_counterexample_substring_masks_missing :
    (("--required_arg").data) ∉ [(("--required_argument").data)]
    ∧ ∃ T, config_resolve [⟨("required_arg").data, true⟩] [(("--required_argument").data)]
        [] [] [] [] [] [] = Except.ok T := by
  exact ⟨by decide, ⟨_, rfl⟩⟩

/-- C7 amended: for every required option whose flag string occurs as a
substring of **no** raw token, resolution fails immediately with the
missing-required error naming that flag — before any parsing or
merging, and regardless of the parse results and source snapshots, so
declared defaults can never mask the missing requirement. -/
theorem c7_amended_missing_required_fails_first :
    ∀ (actions : List OptionSpec) (args : List Str)
      (params default_params params_no_defaults env_config generic_config profile_config : D)
      (flag : Str),
      flag ∈ get_required_args_from_actions actions →
      (∀ s ∈ args, substrIn flag s = false) →
      config_resolve actions args params default_params params_no_defaults
          env_config generic_config profile_config
        = Except.error (ConfigError.missingRequired
            (check_for_missing_required_args actions args))
      ∧ flag ∈ check_for_missing_required_args actions args := by
  intro actions args params default_params params_no_defaults env_config
    generic_config profile_config flag hflag habsent
  have hmem : flag ∈ check_for_missing_required_args actions args := by
    rw [check_for_missing_required_args]
    refine List.mem_filter.mpr ⟨hflag, ?_⟩
    rw [Bool.not_eq_eq_eq_not, Bool.not_true, List.any_eq_false]
    intro s hs
    simp [habsent s hs]
  have hne : check_for_missing_required_args actions args ≠ [] := by
    intro h
    rw [h] at hmem
    exact absurd hmem (List.not_mem_nil _)
  rw [config_resolve, if_pos hne]
  exact ⟨rfl, hmem⟩

/-- Witness for `c7_amended_missing_required_fails_first`: the required
option `--required_arg` with an empty token list. -/
theorem c7_amended_missing_required_fails_first_witness :
    config_resolve [⟨("required_arg").data, true⟩] [] [] [] [] [] [] []
      = Except.error (ConfigError.missingRequired
          (check_for_missing_required_args [⟨("required_arg").data, true⟩] []))
    ∧ (("--required_arg").data) ∈ check_for_missing_required_args
        [⟨("required_arg").data, true⟩] [] := by
  exact c7_amended_missing_required_fails_first [⟨("required_arg").data, true⟩] []
    [] [] [] [] [] [] (("--required_arg").data) (by decide) (by decide)

/-! ## Claim C6: the is-set tracker -/

theorem pyinsert_nodupKeys {κ α : Type} [DecidableEq κ] (d : List (κ × α)) (k : κ) (v : α)
    (h : (d.map Prod.fst).Nodup) : ((pyinsert d k v).map Prod.fst).Nodup := by
  rw [pyinsert_keys]
  by_cases hm : k ∈ d.map Prod.fst
  · simpa [hm] using h
  · simp only [hm, if_false]
    exact List.Nodup.append h (List.nodup_singleton k) (by simpa using hm)

theorem foldl_pyinsert_nodupKeys {κ α : Type} [DecidableEq κ] (l : List (κ × α))
    (acc : List (κ × α)) (h : (acc.map Prod.fst).Nodup) :
    (((l.foldl (fun d kv => pyinsert d kv.1 kv.2) acc)).map Prod.fst).Nodup := by
  induction l generalizing acc with
  | nil => exact h
  | cons hd t ih => exact ih _ (pyinsert_nodupKeys _ _ _ h)

theorem dictOf_nodupKeys {κ α : Type} [DecidableEq κ] (l : List (κ × α)) :
    ((dictOf l).map Prod.fst).Nodup :=
  foldl_pyinsert_nodupKeys l [] (by simp)

theorem mem_pyinsert {κ α : Type} [DecidableEq κ] (d : List (κ × α)) (k : κ) (v : α)
    (kv : κ × α) (h : kv ∈ pyinsert d k v) : kv ∈ d ∨ kv = (k, v) := by
  induction d with
  | nil => simpa [pyinsert] using h
  | cons hd t ih =>
      obtain ⟨k0, v0⟩ := hd
      by_cases h0 : k0 = k
      · subst h0
        rcases List.mem_cons.mp (by simpa [pyinsert] using h) with h1 | h1
        · exact Or.inr (by simp [h1])
        · exact Or.inl (List.mem_cons_of_mem _ h1)
      · rcases List.mem_cons.mp (by simpa [pyinsert, h0] using h) with h1 | h1
        · exact Or.inl (by simp [h1])
        · rcases ih h1 with h2 | h2
          · exact Or.inl (List.mem_cons_of_mem _ h2)
          · exact Or.inr h2

theorem mem_foldl_pyinsert {κ α : Type} [DecidableEq κ] :
    ∀ (l acc : List (κ × α)) (kv : κ × α),
      kv ∈ l.foldl (fun d p => pyinsert d p.1 p.2) acc → kv ∈ acc ∨ kv ∈ l := by
  intro l
  induction l with
  | nil => intro acc kv h; exact Or.inl h
  | cons hd t ih =>
      intro acc kv h
      rcases ih _ _ h with h1 | h1
      · rcases mem_pyinsert _ _ _ _ h1 with h2 | h2
        · exact Or.inl h2
        · exact Or.inr (by simp [h2])
      · exact Or.inr (List.mem_cons_of_mem _ h1)

theorem mem_dictOf {κ α : Type} [DecidableEq κ] (l : List (κ × α)) (kv : κ × α)
    (h : kv ∈ dictOf l) : kv ∈ l := by
  rcases mem_foldl_pyinsert l [] kv h with h1 | h1
  · simp at h1
  · exact h1

mutual
theorem flattenVal_values_scalar : ∀ (v : Val) (new_key : Str) (kv : Str × Val),
    kv ∈ flattenVal v new_key → isScalar kv.2 = true
  | Val.vstr a, new_key, kv, h => by
      simp [flattenVal] at h
      simp [h, isScalar]
  | Val.vbool a, new_key, kv, h => by
      simp [flattenVal] at h
      simp [h, isScalar]
  | Val.vint a, new_key, kv, h => by
      simp [flattenVal] at h
      simp [h, isScalar]
  | Val.vnone, new_key, kv, h => by
      simp [flattenVal] at h
      simp [h, isScalar]
  | Val.vdict sub, new_key, kv, h => by
      rw [flattenVal] at h
      exact flattenItems_values_scalar sub new_key kv (mem_dictOf _ _ h)

theorem flattenItems_values_scalar : ∀ (d : D) (parent : Str) (kv : Str × Val),
    kv ∈ flattenItems d parent → isScalar kv.2 = true
  | [], parent, kv, h => by simp [flattenItems] at h
  | (k, v) :: t, parent, kv, h => by
      rw [flattenItems] at h
      rcases List.mem_append.mp h with h1 | h1
      · exact flattenVal_values_scalar v _ kv h1
      · exact flattenItems_values_scalar t parent kv h1
end

theorem flatten_dict_values_scalar (d : D) (k : Str) (v : Val)
    (h : pylookup (flatten_dict d) k = some v) : isScalar v = true := by
  have hmem := pylookup_mem _ _ _ h
  rw [flatten_dict] at hmem
  exact flattenItems_values_scalar d [] (k, v) (mem_dictOf _ _ hmem)

theorem pyEqV_scalar_iff (x y : Val) (hx : isScalar x = true) :
    pyEqV x y = true ↔ x = y := by
  cases x <;> cases y <;> simp_all [pyEqV, isScalar]

/-- Lookup in the first pass of the is-set construction: every key of
`flatten_config` is initialised to `True`. -/
theorem is_set_first_pass_lookup (l : List (Str × Val)) (acc : List (Str × Bool)) (k : Str) :
    pylookup (l.foldl (fun t kv => pyinsert t kv.1 true) acc) k
      = if k ∈ l.map Prod.fst then some true else pylookup acc k := by
  induction l generalizing acc with
  | nil => simp
  | cons hd t ih =>
      obtain ⟨k0, v0⟩ := hd
      by_cases h0 : k = k0
      · subst h0
        by_cases hm : k ∈ t.map Prod.fst <;>
          simp [ih, hm, pylookup_pyinsert]
      · have h0' : k0 ≠ k := fun h => h0 h.symm
        by_cases hm : k ∈ t.map Prod.fst <;>
          simp [ih, hm, h0, h0', pylookup_pyinsert]

/-- Lookup after the downgrade pass of the is-set construction. -/
theorem is_set_second_pass_lookup (fc : List (Str × Val)) :
    ∀ (fd : List (Str × Val)) (t : List (Str × Bool)) (k : Str),
    ((fd.map Prod.fst).Nodup) →
    pylookup (fd.foldl
        (fun t kv =>
          match pylookup t kv.1, pylookup fc kv.1 with
          | some _, some fv => if pyEqV kv.2 fv then pyinsert t kv.1 false else t
          | _, _ => t) t) k
      = match pylookup fd k with
        | none => pylookup t k
        | some w =>
            match pylookup t k, pylookup fc k with
            | some b, some fv => if pyEqV w fv then some false else some b
            | _, _ => pylookup t k := by
  intro fd
  induction fd with
  | nil => intro t k hnd; simp [pylookup]
  | cons hd rest ih =>
      intro t k hnd
      obtain ⟨k0, w0⟩ := hd
      simp only [List.map_cons, List.nodup_cons] at hnd
      rw [List.foldl_cons, ih _ _ hnd.2]
      by_cases h0 : k0 = k
      · subst h0
        have hrest : pylookup rest k0 = none :=
          (pylookup_eq_none_iff _ _).mpr hnd.1
        rw [hrest]
        simp only [pylookup, if_pos rfl]
        rcases ht : pylookup t k0 with _ | b
        · cases hfc : pylookup fc k0 <;> simp [ht, hfc]
        · cases hfc : pylookup fc k0 with
          | none => simp [ht, hfc]
          | some fv =>
              by_cases heq : pyEqV w0 fv = true
              · simp [ht, hfc, heq, pylookup_pyinsert]
              · simp [ht, hfc, heq]
      · have hl : pylookup ((k0, w0) :: rest) k = pylookup rest k := by
          simp [pylookup, h0]
        rw [hl]
        have hstep : ∀ r : List (Str × Bool),
            pylookup (match pylookup r k0, pylookup fc k0 with
              | some _, some fv => if pyEqV w0 fv then pyinsert r k0 false else r
              | _, _ => r) k = pylookup r k := by
          intro r
          rcases pylookup r k0 with _ | b <;> rcases pylookup fc k0 with _ | fv <;>
            simp [pylookup_pyinsert_ne _ _ _ _ h0]
          by_cases heq : pyEqV w0 fv = true <;>
            simp [heq, pylookup_pyinsert_ne _ _ _ _ h0]
        rw [hstep]

/-- C6: the is-set map equals: every key of the flattened final tree
mapped to `True`, downgraded to `False` exactly when that key also
appears in the flattened pure-defaults dictionary with a `==`-equal
value; consequently a leaf whose final value differs from its declared
default reads `is_set = true`, and a leaf equal to its pure default
reads `is_set = false`. -/
theorem c6_is_set_tracker (self_dict default_params : D) (k : Str) :
    (is_set (build_is_set_map self_dict default_params) k =
      match pylookup (flatten_dict self_dict) k, pylookup (flatten_dict default_params) k with
      | some fv, some w => ! pyEqV w fv
      | some _, none => true
      | none, _ => false)
    ∧ (∀ v w, pylookup (flatten_dict self_dict) k = some v →
        pylookup (flatten_dict default_params) k = some w → v ≠ w →
        is_set (build_is_set_map self_dict default_params) k = true)
    ∧ (∀ v, pylookup (flatten_dict self_dict) k = some v →
        pylookup (flatten_dict default_params) k = some v →
        is_set (build_is_set_map self_dict default_params) k = false) := by
  have hmain : is_set (build_is_set_map self_dict default_params) k =
      match pylookup (flatten_dict self_dict) k, pylookup (flatten_dict default_params) k with
      | some fv, some w => ! pyEqV w fv
      | some _, none => true
      | none, _ => false := by
    rw [build_is_set_map, is_set]
    rw [is_set_second_pass_lookup (flatten_dict self_dict) (flatten_dict default_params)
      _ k (dictOf_nodupKeys _)]
    rcases hfc : pylookup (flatten_dict self_dict) k with _ | fv
    · have hkeys : k ∉ (flatten_dict self_dict).map Prod.fst :=
        (pylookup_eq_none_iff _ _).mp hfc
      rcases hfd : pylookup (flatten_dict default_params) k with _ | w <;>
        simp [is_set_first_pass_lookup, hkeys, hfc, hfd, pylookup]
    · have hkeys : k ∈ (flatten_dict self_dict).map Prod.fst := by
        rw [← pylookup_isSome_iff]
        simp [hfc]
      rcases hfd : pylookup (flatten_dict default_params) k with _ | w
      · simp [is_set_first_pass_lookup, hkeys, hfc, hfd]
      · by_cases heq : pyEqV w fv = true <;>
          simp [is_set_first_pass_lookup, hkeys, hfc, hfd, heq]
  refine ⟨hmain, ?_, ?_⟩
  · intro v w hv hw hne
    rw [hmain, hv, hw]
    have hscal : isScalar w = true := flatten_dict_values_scalar _ _ _ hw
    have : pyEqV w v = false := by
      rw [Bool.eq_false_iff]
      intro hc
      exact hne ((pyEqV_scalar_iff w v hscal).mp hc).symm
    simp [this]
  · intro v hv hw
    rw [hmain, hv, hw]
    have hscal : isScalar v = true := flatten_dict_values_scalar _ _ _ hv
    simp [(pyEqV_scalar_iff v v hscal).mpr rfl]

/-- Witness for `c6_is_set_tracker`: the final tree holds
`test_arg = "new_value"` against declared default `"default_value"`
(`is_set = true`), and `other = "default_value"` equal to its default
(`is_set = false`). -/
theorem c6_is_set_tracker_witness :
    is_set (build_is_set_map
        [(("test_arg").data, Val.vstr (("new_value").data))]
        [(("test_arg").data, Val.vstr (("default_value").data))])
      (("test_arg").data) = true
    ∧ is_set (build_is_set_map
        [(("other").data, Val.vstr (("default_value").data))]
        [(("other").data, Val.vstr (("default_value").data))])
      (("other").data) = false := by
  constructor
  · exact (c6_is_set_tracker
      [(("test_arg").data, Val.vstr (("new_value").data))]
      [(("test_arg").data, Val.vstr (("default_value").data))]
      (("test_arg").data)).2.1 (Val.vstr (("new_value").data))
      (Val.vstr (("default_value").data)) (by decide) (by decide) (by decide)
  · exact (c6_is_set_tracker
      [(("other").data, Val.vstr (("default_value").data))]
      [(("other").data, Val.vstr (("default_value").data))]
      (("other").data)).2.2 (Val.vstr (("default_value").data)) (by decide) (by decide)

/-! ## Claim C4: associativity of `deep_merge` -/

mutual
/-- No Mapping/Scalar type mismatch between two values: either both are
dictionaries and their shared keys are recursively compatible, or
neither is a dictionary. -/
def compatV (x : Val) (y : Val) : Bool :=
  match x, y with
  | Val.vdict a, Val.vdict b => compatD a b
  | Val.vdict _, _ => false
  | _, Val.vdict _ => false
  | _, _ => true
termination_by structural x

/-- No Mapping/Scalar type mismatch between two dictionaries: every key
present in both carries compatible values. -/
def compatD (x : D) (y : D) : Bool :=
  match x with
  | [] => true
  | (k, v) :: t =>
      (match pylookup y k with
       | some w => compatV v w
       | none => true) && compatD t y
termination_by structural x
end

mutual
/-- The value is a well-formed Python value: no dictionary in it binds
a key twice. -/
def allNodupV (v : Val) : Bool :=
  match v with
  | Val.vdict sub => allNodupD sub
  | _ => true
termination_by structural v

/-- The dictionary is a well-formed Python dictionary at every level:
no key bound twice, recursively. -/
def allNodupD (d : D) : Bool :=
  match d with
  | [] => true
  | (k, v) :: t => decide (k ∉ t.map Prod.fst) && allNodupV v && allNodupD t
termination_by structural d
end

theorem allNodupD_keys {d : D} (h : allNodupD d = true) : (d.map Prod.fst).Nodup := by
  induction d with
  | nil => simp
  | cons hd t ih =>
      obtain ⟨k, v⟩ := hd
      rw [allNodupD] at h
      simp only [Bool.and_eq_true, decide_eq_true_eq] at h
      simp only [List.map_cons, List.nodup_cons]
      exact ⟨h.1.1, ih h.2⟩

theorem allNodupD_lookup {d : D} {k : Str} {v : Val} (h : allNodupD d = true)
    (hl : pylookup d k = some v) : allNodupV v = true := by
  induction d with
  | nil => simp [pylookup] at hl
  | cons hd t ih =>
      obtain ⟨k0, v0⟩ := hd
      rw [allNodupD] at h
      simp only [Bool.and_eq_true, decide_eq_true_eq] at h
      by_cases h0 : k0 = k
      · subst h0
        have hv : v0 = v := by simpa [pylookup] using hl
        exact hv ▸ h.1.2
      · simp only [pylookup, if_neg h0] at hl
        exact ih h.2 hl

theorem compatD_lookup {a b : D} {k : Str} {va vb : Val} (h : compatD a b = true)
    (ha : pylookup a k = some va) (hb : pylookup b k = some vb) :
    compatV va vb = true := by
  induction a with
  | nil => simp [pylookup] at ha
  | cons hd t ih =>
      obtain ⟨k0, v0⟩ := hd
      rw [compatD] at h
      simp only [Bool.and_eq_true] at h
      by_cases h0 : k0 = k
      · subst h0
        have hv : v0 = va := by simpa [pylookup] using ha
        rw [hb] at h
        exact hv ▸ h.1
      · simp only [pylookup, if_neg h0] at ha
        exact ih h.2 ha

theorem sizeOf_pylookup {d : D} {k : Str} {v : Val} (h : pylookup d k = some v) :
    sizeOf v < sizeOf d := by
  induction d with
  | nil => simp [pylookup] at h
  | cons hd t ih =>
      obtain ⟨k0, v0⟩ := hd
      by_cases h0 : k0 = k
      · subst h0
        have hv : v0 = v := by simpa [pylookup] using h
        subst hv
        simp
        omega
      · simp only [pylookup, if_neg h0] at h
        have := ih h
        simp
        omega

/-- Lookup characterization of `deep_merge`: the right dictionary wins,
recursing through dictionary pairs (`dict2` must be a real dictionary:
no duplicate keys). -/
theorem deep_merge_lookup :
    ∀ (y x : D) (k : Str), ((y.map Prod.fst).Nodup) →
    pylookup (deep_merge x y) k =
      match pylookup y k with
      | none => pylookup x k
      | some v =>
          match pylookup x k with
          | some found => some (deepMergeVal found v)
          | none => some v := by
  intro y
  induction y with
  | nil => intro x k hnd; simp [deep_merge, pylookup]
  | cons hd t ih =>
      intro x k hnd
      obtain ⟨k0, v0⟩ := hd
      simp only [List.map_cons, List.nodup_cons] at hnd
      rw [deep_merge]
      rw [ih _ k hnd.2]
      by_cases h0 : k0 = k
      · subst h0
        have ht : pylookup t k0 = none := (pylookup_eq_none_iff _ _).mpr hnd.1
        rw [ht]
        simp only [pylookup, if_pos rfl]
        rcases hx : pylookup x k0 with _ | found <;>
          simp [hx, pylookup_pyinsert]
      · have hy : pylookup ((k0, v0) :: t) k = pylookup t k := by
          simp [pylookup, h0]
        rw [hy]
        rcases hx : pylookup x k0 with _ | found <;>
          rcases ht : pylookup t k with _ | w <;>
            simp [hx, ht, pylookup_pyinsert_ne _ _ _ _ h0]

/-- `deep_merge` preserves well-formedness of the top-level key list. -/
theorem deep_merge_nodupKeys :
    ∀ (y x : D), ((x.map Prod.fst).Nodup) → (((deep_merge x y).map Prod.fst).Nodup) := by
  intro y
  induction y with
  | nil => intro x hx; simpa [deep_merge] using hx
  | cons hd t ih =>
      intro x hx
      obtain ⟨k0, v0⟩ := hd
      rw [deep_merge]
      rcases hl : pylookup x k0 with _ | found <;>
        exact ih _ (pyinsert_nodupKeys _ _ _ hx)

theorem allNodupV_vdict (d : D) : allNodupV (Val.vdict d) = allNodupD d := by
  rw [allNodupV]

theorem compatV_vdict (a b : D) : compatV (Val.vdict a) (Val.vdict b) = compatD a b := by
  rw [compatV]

theorem compatV_scalar {x y : Val} (hx : isScalar x = true) (h : compatV x y = true) :
    isScalar y = true := by
  cases x <;> cases y <;> simp_all [compatV, isScalar]

theorem compatV_scalar_right {x y : Val} (hy : isScalar y = true) (h : compatV x y = true) :
    isScalar x = true := by
  cases x <;> cases y <;> simp_all [compatV, isScalar]

theorem deepMergeVal_of_scalar {x y : Val} (h : isScalar x = true ∨ isScalar y = true) :
    deepMergeVal x y = y := by
  cases x <;> cases y <;> simp_all [deepMergeVal, isScalar]

theorem allNodupD_iff (d : D) :
    allNodupD d = true ↔ (d.map Prod.fst).Nodup ∧ ∀ kv ∈ d, allNodupV kv.2 = true := by
  induction d with
  | nil => simp [allNodupD]
  | cons hd t ih =>
      obtain ⟨k, v⟩ := hd
      rw [allNodupD]
      simp only [Bool.and_eq_true, decide_eq_true_eq, ih, List.map_cons, List.nodup_cons,
        List.mem_cons]
      constructor
      · rintro ⟨⟨hk, hv⟩, hnd, hall⟩
        refine ⟨⟨hk, hnd⟩, ?_⟩
        rintro kv (rfl | hkv)
        · exact hv
        · exact hall kv hkv
      · rintro ⟨⟨hk, hnd⟩, hall⟩
        exact ⟨⟨hk, hall (k, v) (Or.inl rfl)⟩, hnd, fun kv hkv => hall kv (Or.inr hkv)⟩

theorem sizeOf_D_pos (x : D) : 0 < sizeOf x := by
  cases x <;> simp

theorem sizeOf_val_pos (v : Val) : 0 < sizeOf v := by
  cases v <;> simp

/-- `deep_merge` of two well-formed dictionaries is well-formed at every
level. -/
theorem deep_merge_allNodup :
    ∀ (n : Nat) (b c : D), sizeOf b + sizeOf c ≤ n →
      allNodupD b = true → allNodupD c = true → allNodupD (deep_merge b c) = true := by
  intro n
  induction n with
  | zero =>
      intro b c hsz
      have := sizeOf_D_pos b
      omega
  | succ m ih =>
      intro b c hsz hb hc
      rw [allNodupD_iff]
      refine ⟨deep_merge_nodupKeys _ _ (allNodupD_keys hb), ?_⟩
      intro kv hkv
      have hnd : ((deep_merge b c).map Prod.fst).Nodup :=
        deep_merge_nodupKeys _ _ (allNodupD_keys hb)
      have hl : pylookup (deep_merge b c) kv.1 = some kv.2 :=
        pylookup_of_mem_nodup _ _ _ (by simpa using hkv) hnd
      rw [deep_merge_lookup c b kv.1 (allNodupD_keys hc)] at hl
      rcases hkc : pylookup c kv.1 with _ | vc
      · rw [hkc] at hl
        simp only at hl
        exact allNodupD_lookup hb hl
      · rw [hkc] at hl
        rcases hkb : pylookup b kv.1 with _ | vb
        · rw [hkb] at hl
          simp only [Option.some.injEq] at hl
          exact hl ▸ allNodupD_lookup hc hkc
        · rw [hkb] at hl
          simp only [Option.some.injEq] at hl
          rw [← hl]
          cases vb with
          | vdict b' =>
              cases vc with
              | vdict c' =>
                  rw [deepMergeVal, allNodupV_vdict]
                  have hszb : sizeOf b' < sizeOf b := by
                    have := sizeOf_pylookup hkb
                    simp at this
                    omega
                  have hszc : sizeOf c' < sizeOf c := by
                    have := sizeOf_pylookup hkc
                    simp at this
                    omega
                  exact ih b' c' (by omega)
                    (allNodupV_vdict _ ▸ allNodupD_lookup hb hkb)
                    (allNodupV_vdict _ ▸ allNodupD_lookup hc hkc)
              | vstr a => rw [deepMergeVal_of_scalar (Or.inr (by simp [isScalar]))]; exact allNodupD_lookup hc hkc
              | vbool a => rw [deepMergeVal_of_scalar (Or.inr (by simp [isScalar]))]; exact allNodupD_lookup hc hkc
              | vint a => rw [deepMergeVal_of_scalar (Or.inr (by simp [isScalar]))]; exact allNodupD_lookup hc hkc
              | vnone => rw [deepMergeVal_of_scalar (Or.inr (by simp [isScalar]))]; exact allNodupD_lookup hc hkc
          | vstr a => rw [deepMergeVal_of_scalar (Or.inl (by simp [isScalar]))]; exact allNodupD_lookup hc hkc
          | vbool a => rw [deepMergeVal_of_scalar (Or.inl (by simp [isScalar]))]; exact allNodupD_lookup hc hkc
          | vint a => rw [deepMergeVal_of_scalar (Or.inl (by simp [isScalar]))]; exact allNodupD_lookup hc hkc
          | vnone => rw [deepMergeVal_of_scalar (Or.inl (by simp [isScalar]))]; exact allNodupD_lookup hc hkc

/-- `pyEqSub` holds when every binding of `x` has a `==`-equal binding
in `y`. -/
theorem pyEqSub_of_lookup :
    ∀ (x y : D), ((x.map Prod.fst).Nodup) →
      (∀ k v, pylookup x k = some v → ∃ w, pylookup y k = some w ∧ pyEqV v w = true) →
      pyEqSub x y = true := by
  intro x
  induction x with
  | nil => intro y hnd h; rw [pyEqSub]
  | cons hd t ih =>
      intro y hnd h
      obtain ⟨k0, v0⟩ := hd
      simp only [List.map_cons, List.nodup_cons] at hnd
      rw [pyEqSub]
      obtain ⟨w, hw, hvw⟩ := h k0 v0 (by simp [pylookup])
      rw [hw]
      simp only [Bool.and_eq_true]
      refine ⟨hvw, ih y hnd.2 ?_⟩
      intro k v hl
      apply h
      have hk : k ≠ k0 := by
        rintro rfl
        exact hnd.1 (by
          rw [← pylookup_isSome_iff]
          simp [hl])
      rw [pylookup, if_neg (fun hh : k0 = k => hk hh.symm)]
      exact hl

/-- `pyEqV` is reflexive on well-formed values. -/
theorem pyEqV_refl_aux :
    ∀ (n : Nat) (v : Val), sizeOf v ≤ n → allNodupV v = true → pyEqV v v = true := by
  intro n
  induction n with
  | zero =>
      intro v hsz
      have := sizeOf_val_pos v
      omega
  | succ m ih =>
      intro v hsz hnd
      cases v with
      | vstr a => simp [pyEqV]
      | vbool a => simp [pyEqV]
      | vint a => simp [pyEqV]
      | vnone => rw [pyEqV]
      | vdict a =>
          rw [pyEqV]
          simp only [Bool.and_eq_true]
          constructor
          · apply pyEqSub_of_lookup a a (allNodupD_keys (allNodupV_vdict a ▸ hnd))
            intro k v hl
            refine ⟨v, hl, ?_⟩
            have hv : sizeOf v < sizeOf a := sizeOf_pylookup hl
            have hsz2 : sizeOf a < sizeOf (Val.vdict a) := by simp
            exact ih v (by omega) (allNodupD_lookup (allNodupV_vdict a ▸ hnd) hl)
          · rw [List.all_eq_true]
            intro kv hkv
            show (pylookup a kv.1).isSome = true
            rw [pylookup_isSome_iff]
            exact List.mem_map.mpr ⟨kv, hkv, rfl⟩

theorem pyEqV_refl (v : Val) (h : allNodupV v = true) : pyEqV v v = true :=
  pyEqV_refl_aux (sizeOf v) v le_rfl h

/-- Python dictionary equality follows from pointwise `==`-equality of
lookups. -/
theorem pyEqD_of_pointwise (x y : D) (hx : (x.map Prod.fst).Nodup)
    (h : ∀ k, match pylookup x k, pylookup y k with
         | some v, some w => pyEqV v w = true
         | none, none => True
         | _, _ => False) : pyEqD x y = true := by
  rw [pyEqD]
  simp only [Bool.and_eq_true]
  constructor
  · apply pyEqSub_of_lookup x y hx
    intro k v hl
    have hk := h k
    rw [hl] at hk
    rcases hw : pylookup y k with _ | w
    · rw [hw] at hk
      exact absurd hk (by simp)
    · rw [hw] at hk
      exact ⟨w, rfl, hk⟩
  · rw [List.all_eq_true]
    intro kv hkv
    have hk := h kv.1
    have hy : (pylookup y kv.1).isSome = true :=
      (pylookup_isSome_iff _ _).mpr (List.mem_map.mpr ⟨kv, hkv, rfl⟩)
    rcases hw : pylookup y kv.1 with _ | w
    · rw [hw] at hy; simp at hy
    · rw [hw] at hk
      rcases hv : pylookup x kv.1 with _ | v
      · rw [hv] at hk
        exact absurd hk (by simp)
      · simp [hv]

theorem allNodupV_deepMergeVal (x y : Val) (hx : allNodupV x = true) (hy : allNodupV y = true) :
    allNodupV (deepMergeVal x y) = true := by
  cases x with
  | vdict a =>
      cases y with
      | vdict b =>
          rw [deepMergeVal, allNodupV_vdict]
          exact deep_merge_allNodup (sizeOf a + sizeOf b) a b le_rfl
            (allNodupV_vdict _ ▸ hx) (allNodupV_vdict _ ▸ hy)
      | vstr s => rw [deepMergeVal_of_scalar (Or.inr (by simp [isScalar]))]; exact hy
      | vbool s => rw [deepMergeVal_of_scalar (Or.inr (by simp [isScalar]))]; exact hy
      | vint s => rw [deepMergeVal_of_scalar (Or.inr (by simp [isScalar]))]; exact hy
      | vnone => rw [deepMergeVal_of_scalar (Or.inr (by simp [isScalar]))]; exact hy
  | vstr s => rw [deepMergeVal_of_scalar (Or.inl (by simp [isScalar]))]; exact hy
  | vbool s => rw [deepMergeVal_of_scalar (Or.inl (by simp [isScalar]))]; exact hy
  | vint s => rw [deepMergeVal_of_scalar (Or.inl (by simp [isScalar]))]; exact hy
  | vnone => rw [deepMergeVal_of_scalar (Or.inl (by simp [isScalar]))]; exact hy

/-- Associativity of `deep_merge` up to Python dictionary equality, for
well-formed operands with no Mapping/Scalar mismatch on any shared
path (strong induction on the total size). -/
theorem deep_merge_assoc_aux :
    ∀ (n : Nat) (a b c : D), sizeOf a + sizeOf b + sizeOf c ≤ n →
      allNodupD a = true → allNodupD b = true → allNodupD c = true →
      compatD a b = true → compatD a c = true → compatD b c = true →
      pyEqD (deep_merge (deep_merge a b) c) (deep_merge a (deep_merge b c)) = true := by
  intro n
  induction n with
  | zero =>
      intro a b c hsz _ _ _ _ _ _
      have := sizeOf_D_pos a
      omega
  | succ m ih =>
      intro a b c hsz ha hb hc hab hac hbc
      apply pyEqD_of_pointwise _ _
        (deep_merge_nodupKeys _ _ (deep_merge_nodupKeys _ _ (allNodupD_keys ha)))
      intro k
      rw [deep_merge_lookup c (deep_merge a b) k (allNodupD_keys hc),
          deep_merge_lookup b a k (allNodupD_keys hb),
          deep_merge_lookup (deep_merge b c) a k
            (deep_merge_nodupKeys _ _ (allNodupD_keys hb)),
          deep_merge_lookup c b k (allNodupD_keys hc)]
      rcases hka : pylookup a k with _ | va <;>
        rcases hkb : pylookup b k with _ | vb <;>
          rcases hkc : pylookup c k with _ | vc <;>
            simp only
      · exact pyEqV_refl vc (allNodupD_lookup hc hkc)
      · exact pyEqV_refl vb (allNodupD_lookup hb hkb)
      · exact pyEqV_refl (deepMergeVal vb vc)
          (allNodupV_deepMergeVal vb vc (allNodupD_lookup hb hkb) (allNodupD_lookup hc hkc))
      · exact pyEqV_refl va (allNodupD_lookup ha hka)
      · exact pyEqV_refl (deepMergeVal va vc)
          (allNodupV_deepMergeVal va vc (allNodupD_lookup ha hka) (allNodupD_lookup hc hkc))
      · exact pyEqV_refl (deepMergeVal va vb)
          (allNodupV_deepMergeVal va vb (allNodupD_lookup ha hka) (allNodupD_lookup hb hkb))
      · -- the key is present in all three operands
        have cab := compatD_lookup hab hka hkb
        have cac := compatD_lookup hac hka hkc
        have cbc := compatD_lookup hbc hkb hkc
        rcases hsa : isScalar va with _ | _
        · -- `va` is a dictionary, hence so are `vb` and `vc`
          cases va with
          | vdict a' =>
              cases vb with
              | vdict b' =>
                  cases vc with
                  | vdict c' =>
                      show pyEqV (Val.vdict (deep_merge (deep_merge a' b') c'))
                        (Val.vdict (deep_merge a' (deep_merge b' c'))) = true
                      rw [pyEqV_vdict]
                      have hsa' : sizeOf a' < sizeOf a := by
                        have := sizeOf_pylookup hka
                        simp at this
                        omega
                      have hsb' : sizeOf b' < sizeOf b := by
                        have := sizeOf_pylookup hkb
                        simp at this
                        omega
                      have hsc' : sizeOf c' < sizeOf c := by
                        have := sizeOf_pylookup hkc
                        simp at this
                        omega
                      exact ih a' b' c' (by omega)
                        (allNodupV_vdict _ ▸ allNodupD_lookup ha hka)
                        (allNodupV_vdict _ ▸ allNodupD_lookup hb hkb)
                        (allNodupV_vdict _ ▸ allNodupD_lookup hc hkc)
                        (compatV_vdict _ _ ▸ cab)
                        (compatV_vdict _ _ ▸ cac)
                        (compatV_vdict _ _ ▸ cbc)
                  | vstr s => simp [compatV] at cac
                  | vbool s => simp [compatV] at cac
                  | vint s => simp [compatV] at cac
                  | vnone => simp [compatV] at cac
              | vstr s => simp [compatV] at cab
              | vbool s => simp [compatV] at cab
              | vint s => simp [compatV] at cab
              | vnone => simp [compatV] at cab
          | vstr s => simp [isScalar] at hsa
          | vbool s => simp [isScalar] at hsa
          | vint s => simp [isScalar] at hsa
          | vnone => simp [isScalar] at hsa
        · -- `va` is a scalar, hence so are `vb` and `vc`
          have hsb : isScalar vb = true := compatV_scalar hsa cab
          have hsc : isScalar vc = true := compatV_scalar hsa cac
          rw [show deepMergeVal va vb = vb from deepMergeVal_of_scalar (Or.inl hsa),
              show deepMergeVal vb vc = vc from deepMergeVal_of_scalar (Or.inl hsb),
              show deepMergeVal va vc = vc from deepMergeVal_of_scalar (Or.inl hsa)]
          exact pyEqV_refl vc (allNodupD_lookup hc hkc)

/-- C4: `deep_merge` is associative (up to Python `==` on
dictionaries) for all well-formed operands `a`, `b`, `c` in which no
path carries a Mapping in one operand and a Scalar in another; and the
mismatched triple `a = {k: {x: 1}}`, `b = {k: 2}`, `c = {k: {y: 3}}`
(where `a` and `b` conflict on `k`) breaks associativity:
`deep_merge(deep_merge(a,b),c) = {k: {y: 3}}` while
`deep_merge(a,deep_merge(b,c)) = {k: {x: 1, y: 3}}`. -/
theorem c4_deep_merge_associative :
    (∀ a b c : D, allNodupD a = true → allNodupD b = true → allNodupD c = true →
      compatD a b = true → compatD a c = true → compatD b c = true →
      pyEqD (deep_merge (deep_merge a b) c) (deep_merge a (deep_merge b c)) = true)
    ∧ (compatD [(("k").data, Val.vdict [(("x").data, Val.vint 1)])]
         [(("k").data, Val.vint 2)] = false
       ∧ pyEqD
           (deep_merge (deep_merge
             [(("k").data, Val.vdict [(("x").data, Val.vint 1)])]
             [(("k").data, Val.vint 2)])
             [(("k").data, Val.vdict [(("y").data, Val.vint 3)])])
           (deep_merge [(("k").data, Val.vdict [(("x").data, Val.vint 1)])]
             (deep_merge [(("k").data, Val.vint 2)]
               [(("k").data, Val.vdict [(("y").data, Val.vint 3)])])) = false) := by
  refine ⟨?_, by decide, by decide⟩
  intro a b c ha hb hc hab hac hbc
  exact deep_merge_assoc_aux (sizeOf a + sizeOf b + sizeOf c) a b c le_rfl
    ha hb hc hab hac hbc

/-- Witness for `c4_deep_merge_associative` on a compatible concrete
triple with overlapping keys and nested dictionaries. -/
theorem c4_deep_merge_associative_witness :
    pyEqD
      (deep_merge (deep_merge
        [(("k").data, Val.vdict [(("x").data, Val.vint 1)]), (("p").data, Val.vint 7)]
        [(("q").data, Val.vint 5), (("k").data, Val.vdict [(("y").data, Val.vint 2)])])
        [(("k").data, Val.vdict [(("x").data, Val.vint 9), (("z").data, Val.vint 3)]),
         (("q").data, Val.vint 6)])
      (deep_merge
        [(("k").data, Val.vdict [(("x").data, Val.vint 1)]), (("p").data, Val.vint 7)]
        (deep_merge
          [(("q").data, Val.vint 5), (("k").data, Val.vdict [(("y").data, Val.vint 2)])]
          [(("k").data, Val.vdict [(("x").data, Val.vint 9), (("z").data, Val.vint 3)]),
           (("q").data, Val.vint 6)])) = true :=
  c4_deep_merge_associative.1
    [(("k").data, Val.vdict [(("x").data, Val.vint 1)]), (("p").data, Val.vint 7)]
    [(("q").data, Val.vint 5), (("k").data, Val.vdict [(("y").data, Val.vint 2)])]
    [(("k").data, Val.vdict [(("x").data, Val.vint 9), (("z").data, Val.vint 3)]),
     (("q").data, Val.vint 6)]
    (by decide) (by decide) (by decide) (by decide) (by decide) (by decide)

/-! ## Claim C3: the dot-path codec round trip -/

mutual
/-- No dictionary anywhere below this value is empty. -/
def noEmptyV (v : Val) : Bool :=
  match v with
  | Val.vdict sub => decide (sub ≠ []) && noEmptyD sub
  | _ => true
termination_by structural v

/-- No dictionary value anywhere in this dictionary is empty. -/
def noEmptyD (d : D) : Bool :=
  match d with
  | [] => true
  | (_, v) :: t => noEmptyV v && noEmptyD t
termination_by structural d
end

mutual
/-- No key anywhere below this value contains the separator `.`. -/
def dotFreeV (v : Val) : Bool :=
  match v with
  | Val.vdict sub => dotFreeD sub
  | _ => true
termination_by structural v

/-- No key anywhere in this dictionary contains the separator `.`. -/
def dotFreeD (d : D) : Bool :=
  match d with
  | [] => true
  | (k, v) :: t => decide (('.') ∉ k) && dotFreeV v && dotFreeD t
termination_by structural d
end

theorem noEmptyD_lookup {d : D} {k : Str} {v : Val} (h : noEmptyD d = true)
    (hl : pylookup d k = some v) : noEmptyV v = true := by
  induction d with
  | nil => simp [pylookup] at hl
  | cons hd t ih =>
      obtain ⟨k0, v0⟩ := hd
      rw [noEmptyD] at h
      simp only [Bool.and_eq_true] at h
      by_cases h0 : k0 = k
      · subst h0
        have hv : v0 = v := by simpa [pylookup] using hl
        exact hv ▸ h.1
      · simp only [pylookup, if_neg h0] at hl
        exact ih h.2 hl

theorem dotFreeD_lookup {d : D} {k : Str} {v : Val} (h : dotFreeD d = true)
    (hl : pylookup d k = some v) : dotFreeV v = true := by
  induction d with
  | nil => simp [pylookup] at hl
  | cons hd t ih =>
      obtain ⟨k0, v0⟩ := hd
      rw [dotFreeD] at h
      simp only [Bool.and_eq_true] at h
      by_cases h0 : k0 = k
      · subst h0
        have hv : v0 = v := by simpa [pylookup] using hl
        exact hv ▸ h.1.2
      · simp only [pylookup, if_neg h0] at hl
        exact ih h.2 hl

theorem dotFreeD_mem {d : D} {kv : Str × Val} (h : dotFreeD d = true) (hm : kv ∈ d) :
    ('.') ∉ kv.1 := by
  induction d with
  | nil => simp at hm
  | cons hd t ih =>
      obtain ⟨k0, v0⟩ := hd
      rw [dotFreeD] at h
      simp only [Bool.and_eq_true, decide_eq_true_eq] at h
      rcases List.mem_cons.mp hm with h1 | h1
      · exact h1 ▸ h.1.1
      · exact ih h.2 h1

theorem noEmptyD_pyinsert {d : D} {k : Str} {v : Val} (hd : noEmptyD d = true)
    (hv : noEmptyV v = true) : noEmptyD (pyinsert d k v) = true := by
  induction d with
  | nil => simp [pyinsert, noEmptyD, hv]
  | cons hd0 t ih =>
      obtain ⟨k0, v0⟩ := hd0
      rw [noEmptyD] at hd
      simp only [Bool.and_eq_true] at hd
      by_cases h0 : k0 = k <;>
        simp only [pyinsert, if_pos, if_neg, h0, noEmptyD, Bool.and_eq_true]
      · exact ⟨hv, hd.2⟩
      · exact ⟨hd.1, ih hd.2⟩

theorem dotFreeD_pyinsert {d : D} {k : Str} {v : Val} (hd : dotFreeD d = true)
    (hk : ('.') ∉ k) (hv : dotFreeV v = true) : dotFreeD (pyinsert d k v) = true := by
  induction d with
  | nil => simp [pyinsert, dotFreeD, hv, hk]
  | cons hd0 t ih =>
      obtain ⟨k0, v0⟩ := hd0
      rw [dotFreeD] at hd
      simp only [Bool.and_eq_true, decide_eq_true_eq] at hd
      by_cases h0 : k0 = k <;>
        simp only [pyinsert, if_pos, if_neg, h0, dotFreeD, Bool.and_eq_true, decide_eq_true_eq]
      · exact ⟨⟨hk, hv⟩, hd.2⟩
      · exact ⟨hd.1, ih hd.2⟩

theorem allNodupD_pyinsert {d : D} {k : Str} {v : Val} (hd : allNodupD d = true)
    (hv : allNodupV v = true) : allNodupD (pyinsert d k v) = true := by
  rw [allNodupD_iff]
  rw [allNodupD_iff] at hd
  refine ⟨pyinsert_nodupKeys _ _ _ hd.1, ?_⟩
  intro kv hkv
  rcases mem_pyinsert _ _ _ _ hkv with h1 | h1
  · exact hd.2 kv h1
  · rw [h1]
    exact hv

theorem pathLookup_nil (q : List Str) (hq : q ≠ []) : pathLookup [] q = none := by
  cases q with
  | nil => exact absurd rfl hq
  | cons k r =>
      cases r with
      | nil => rw [pathLookup, pylookup]
      | cons r1 rr => rw [pathLookup, pylookup]

theorem leafAt_nil (q : List Str) (hq : q ≠ []) : leafAt [] q = none := by
  rw [leafAt, pathLookup_nil q hq]

theorem pathLookup_cons (d : D) (k : Str) (q : List Str) (hq : q ≠ []) :
    pathLookup d (k :: q) =
      match pylookup d k with
      | some (Val.vdict sub) => pathLookup sub q
      | _ => none := by
  cases q with
  | nil => exact absurd rfl hq
  | cons r1 rr => rw [pathLookup]

theorem pathLookup_append :
    ∀ (p : List Str) (d : D) (r : List Str),
    pathLookup d (p ++ r) =
      match pathLookup d p with
      | some (Val.vdict sub) => pathLookup sub r
      | some w => if r = [] then some w else none
      | none => none := by
  intro p
  induction p with
  | nil =>
      intro d r
      simp only [List.nil_append]
      rfl
  | cons k p1 ih =>
      intro d r
      cases p1 with
      | nil =>
          simp only [List.singleton_append]
          cases r with
          | nil =>
              show pathLookup d [k] = _
              rcases hk : pylookup d k with _ | w
              · rw [pathLookup, hk]
              · rw [pathLookup, hk]
                cases w <;> simp [pathLookup]
          | cons r1 rr =>
              rw [pathLookup, pathLookup]
              rcases hk : pylookup d k with _ | w
              · rfl
              · cases w <;> simp
      | cons p2 ps =>
          simp only [List.cons_append]
          rw [pathLookup, pathLookup]
          rcases hk : pylookup d k with _ | w
          · rfl
          · cases w with
            | vdict sub =>
                show pathLookup sub ((p2 :: ps) ++ r) = _
                rw [ih sub r]
            | vstr s => rfl
            | vbool s => rfl
            | vint s => rfl
            | vnone => rfl

theorem pathLookup_noEmpty :
    ∀ (q : List Str) (d : D) (v : Val), noEmptyD d = true → q ≠ [] →
      pathLookup d q = some v → noEmptyV v = true := by
  intro q
  induction q with
  | nil => intro d v _ hq; exact absurd rfl hq
  | cons k r ih =>
      intro d v hd _ h
      cases r with
      | nil =>
          rw [pathLookup] at h
          exact noEmptyD_lookup hd h
      | cons r1 rr =>
          rw [pathLookup] at h
          rcases hk : pylookup d k with _ | w
          · rw [hk] at h; simp at h
          · rw [hk] at h
            cases w with
            | vdict sub =>
                have hne := noEmptyD_lookup hd hk
                rw [noEmptyV] at hne
                simp only [Bool.and_eq_true] at hne
                exact ih sub v hne.2 (by simp) (by simpa using h)
            | vstr s => simp at h
            | vbool s => simp at h
            | vint s => simp at h
            | vnone => simp at h

/-- Every nonempty dictionary with no empty sub-dictionary contains a
scalar leaf below some nonempty path. -/
theorem dict_leaf_below :
    ∀ (n : Nat) (sub : D), sizeOf sub ≤ n → noEmptyD sub = true → sub ≠ [] →
      ∃ ext w, ext ≠ [] ∧ pathLookup sub ext = some w ∧ isScalar w = true := by
  intro n
  induction n with
  | zero =>
      intro sub hsz
      have := sizeOf_D_pos sub
      omega
  | succ m ih =>
      intro sub hsz hne hsub
      cases sub with
      | nil => exact absurd rfl hsub
      | cons hd t =>
          obtain ⟨k, v⟩ := hd
          rw [noEmptyD] at hne
          simp only [Bool.and_eq_true] at hne
          cases v with
          | vdict sub' =>
              have hv := hne.1
              rw [noEmptyV] at hv
              simp only [Bool.and_eq_true, decide_eq_true_eq] at hv
              have hsz' : sizeOf sub' ≤ m := by
                simp at hsz
                omega
              obtain ⟨ext, w, hext, hpl, hw⟩ := ih sub' hsz' hv.2 hv.1
              refine ⟨k :: ext, w, by simp, ?_, hw⟩
              rw [pathLookup_cons _ _ _ hext]
              simp [pylookup, hpl]
          | vstr s =>
              exact ⟨[k], Val.vstr s, by simp, by simp [pathLookup, pylookup],
                by simp [isScalar]⟩
          | vbool s =>
              exact ⟨[k], Val.vbool s, by simp, by simp [pathLookup, pylookup],
                by simp [isScalar]⟩
          | vint s =>
              exact ⟨[k], Val.vint s, by simp, by simp [pathLookup, pylookup],
                by simp [isScalar]⟩
          | vnone =>
              exact ⟨[k], Val.vnone, by simp, by simp [pathLookup, pylookup],
                by simp [isScalar]⟩

theorem splitOn_ne_nil {α : Type} [DecidableEq α] (c : α) (k : List α) :
    k.splitOn c ≠ [] := by
  rw [List.splitOn]
  exact List.splitOnP_ne_nil _ _

theorem mem_splitOn_not_sep {α : Type} [DecidableEq α] :
    ∀ (k : List α) (c : α) (chunk : List α), chunk ∈ k.splitOn c → c ∉ chunk := by
  intro k c
  induction k with
  | nil =>
      intro chunk h
      rw [List.splitOn_nil] at h
      simp at h
      simp [h]
  | cons x t ih =>
      intro chunk h
      rw [List.splitOn, List.splitOnP_cons] at h
      by_cases hx : x = c
      · rw [if_pos (by simp [hx])] at h
        rcases List.mem_cons.mp h with h1 | h1
        · simp [h1]
        · exact ih chunk (by rw [List.splitOn]; exact h1)
      · rw [if_neg (by simp [hx])] at h
        rcases he : t.splitOnP (· == c) with _ | ⟨hd0, tl0⟩
        · exact absurd he (List.splitOnP_ne_nil _ _)
        · rw [he] at h
          simp only [List.modifyHead] at h
          rcases List.mem_cons.mp h with h1 | h1
          · subst h1
            intro hmem
            rcases List.mem_cons.mp hmem with h2 | h2
            · exact hx h2.symm
            · exact ih hd0 (by rw [List.splitOn, he]; exact List.mem_cons_self _ _) h2
          · exact ih chunk (by rw [List.splitOn, he]; exact List.mem_cons_of_mem _ h1)

theorem splitOn_injective {α : Type} [DecidableEq α] (c : α) (k1 k2 : List α)
    (h : k1.splitOn c = k2.splitOn c) : k1 = k2 := by
  have h1 := @List.intercalate_splitOn _ k1 c _
  have h2 := @List.intercalate_splitOn _ k2 c _
  rw [← h1, ← h2, h]

theorem noEmptyV_scalar {v : Val} (h : isScalar v = true) : noEmptyV v = true := by
  cases v <;> simp_all [noEmptyV, isScalar]

theorem dotFreeV_scalar {v : Val} (h : isScalar v = true) : dotFreeV v = true := by
  cases v <;> simp_all [dotFreeV, isScalar]

theorem allNodupV_scalar {v : Val} (h : isScalar v = true) : allNodupV v = true := by
  cases v <;> simp_all [allNodupV, isScalar]

theorem leafAt_single (d : D) (k : Str) :
    leafAt d [k] =
      match pylookup d k with
      | some w => if isScalar w then some w else none
      | none => none := by
  rw [leafAt, pathLookup]

theorem leafAt_cons (d : D) (k : Str) (q : List Str) (hq : q ≠ []) :
    leafAt d (k :: q) =
      match pylookup d k with
      | some (Val.vdict sub) => leafAt sub q
      | _ => none := by
  rw [leafAt, pathLookup_cons _ _ _ hq]
  rcases hk : pylookup d k with _ | w
  · rfl
  · cases w <;> rfl

theorem leafAt_some_ne_nil {q : List Str} {w : Val} (hq : q ≠ [])
    (h : leafAt ([] : D) q = some w) : False := by
  rw [leafAt_nil q hq] at h
  exact Option.noConfusion h


theorem pathLookup_cons_dict {d : D} {k : Str} {sub : D} (q : List Str) (hq : q ≠ [])
    (h : pylookup d k = some (Val.vdict sub)) : pathLookup d (k :: q) = pathLookup sub q := by
  rw [pathLookup_cons _ _ _ hq, h]

theorem pathLookup_cons_none {d : D} {k : Str} (q : List Str) (hq : q ≠ [])
    (h : pylookup d k = none) : pathLookup d (k :: q) = none := by
  rw [pathLookup_cons _ _ _ hq, h]

theorem pathLookup_cons_scalar {d : D} {k : Str} {w : Val} (q : List Str) (hq : q ≠ [])
    (h : pylookup d k = some w) (hw : isScalar w = true) : pathLookup d (k :: q) = none := by
  rw [pathLookup_cons _ _ _ hq, h]
  cases w <;> simp_all [isScalar]

theorem leafAt_cons_dict {d : D} {k : Str} {sub : D} (q : List Str) (hq : q ≠ [])
    (h : pylookup d k = some (Val.vdict sub)) : leafAt d (k :: q) = leafAt sub q := by
  rw [leafAt, pathLookup_cons_dict q hq h, leafAt]

theorem leafAt_cons_none {d : D} {k : Str} (q : List Str) (hq : q ≠ [])
    (h : pylookup d k = none) : leafAt d (k :: q) = none := by
  rw [leafAt, pathLookup_cons_none q hq h]

theorem leafAt_cons_scalar {d : D} {k : Str} {w : Val} (q : List Str) (hq : q ≠ [])
    (h : pylookup d k = some w) (hw : isScalar w = true) : leafAt d (k :: q) = none := by
  rw [leafAt, pathLookup_cons_scalar q hq h hw]

theorem leafAt_single_some {d : D} {k : Str} {w : Val} (h : pylookup d k = some w)
    (hw : isScalar w = true) : leafAt d [k] = some w := by
  rw [leafAt, pathLookup, h]
  simp [hw]

theorem leafAt_single_dict {d : D} {k : Str} {sub : D}
    (h : pylookup d k = some (Val.vdict sub)) : leafAt d [k] = none := by
  rw [leafAt, pathLookup, h]
  rfl

theorem leafAt_single_none {d : D} {k : Str} (h : pylookup d k = none) :
    leafAt d [k] = none := by
  rw [leafAt, pathLookup, h]

theorem pathLookup_single (d : D) (k : Str) : pathLookup d [k] = pylookup d k := by
  rw [pathLookup]

/-- Effect of a single `unflatten_dict` insertion on a tree in which
every proper prefix of the target path is either absent or a
dictionary, and the target path itself is absent: the insertion
succeeds, adds exactly the one scalar leaf, and preserves the
well-formedness predicates. -/
theorem unflattenInsert_spec :
    ∀ (parts : List Str) (d : D) (v : Val),
      isScalar v = true →
      (∀ q w, q ≠ [] → q <+: parts → q ≠ parts → pathLookup d q = some w →
        ∃ sub, w = Val.vdict sub) →
      pathLookup d parts = none →
      parts ≠ [] →
      ∃ d', unflattenInsert d parts v = some d'
        ∧ (∀ q, q ≠ [] → leafAt d' q = if q = parts then some v else leafAt d q)
        ∧ (noEmptyD d = true → noEmptyD d' = true)
        ∧ ((∀ s ∈ parts, ('.') ∉ s) → dotFreeD d = true → dotFreeD d' = true)
        ∧ (allNodupD d = true → allNodupD d' = true) := by
  intro parts
  induction parts with
  | nil => intro d v _ _ _ hne; exact absurd rfl hne
  | cons p ptail ih =>
      intro d v hscal hwalk htgt _
      cases ptail with
      | nil =>
          -- parts = [p]: a plain insertion at the top level
          have hd0 : pylookup d p = none := by
            rw [← pathLookup_single]
            exact htgt
          refine ⟨pyinsert d p v, rfl, ?_, ?_, ?_, ?_⟩
          · intro q hq
            cases q with
            | nil => exact absurd rfl hq
            | cons k qr =>
                by_cases hk : k = p
                · subst hk
                  cases qr with
                  | nil =>
                      rw [if_pos rfl, leafAt_single_some (pylookup_pyinsert_self d k v) hscal]
                  | cons q1 qs =>
                      rw [if_neg (by simp),
                        leafAt_cons_scalar _ (by simp) (pylookup_pyinsert_self d k v) hscal,
                        leafAt_cons_none _ (by simp) hd0]
                · have hk2 : ¬ p = k := fun h => hk h.symm
                  have hins := pylookup_pyinsert_ne d p k v hk2
                  rw [if_neg (by simp [hk])]
                  cases qr with
                  | nil =>
                      rw [leafAt_single, leafAt_single, hins]
                  | cons q1 qs =>
                      rw [leafAt_cons _ _ _ (by simp), leafAt_cons _ _ _ (by simp), hins]
          · intro hd
            exact noEmptyD_pyinsert hd (noEmptyV_scalar hscal)
          · intro hdf hd
            exact dotFreeD_pyinsert hd (hdf p (by simp)) (dotFreeV_scalar hscal)
          · intro hd
            exact allNodupD_pyinsert hd (allNodupV_scalar hscal)
      | cons r1 rs =>
          -- parts = p :: r1 :: rs: walk one level down
          rcases hp : pylookup d p with _ | w
          · -- the segment is absent: a fresh dictionary is created
            obtain ⟨sub', heq, hleaf, hnoE, hdf, hanod⟩ :=
              ih [] v hscal
                (fun q w hq _ _ hpl => absurd hpl (by rw [pathLookup_nil q hq]; simp))
                (pathLookup_nil _ (by simp)) (by simp)
            have hsub_ne : sub' ≠ [] := by
              intro hc
              have := hleaf (r1 :: rs) (by simp)
              rw [if_pos rfl, hc, leafAt_nil _ (by simp)] at this
              exact Option.noConfusion this
            refine ⟨pyinsert d p (Val.vdict sub'), ?_, ?_, ?_, ?_, ?_⟩
            · rw [unflattenInsert, hp]
              show (unflattenInsert [] (r1 :: rs) v).map
                (fun s => pyinsert d p (Val.vdict s)) = _
              rw [heq]
              rfl
            · intro q hq
              cases q with
              | nil => exact absurd rfl hq
              | cons k qr =>
                  by_cases hk : k = p
                  · subst hk
                    cases qr with
                    | nil =>
                        rw [if_neg (by simp), leafAt_single_dict (pylookup_pyinsert_self _ _ _),
                          leafAt_single_none hp]
                    | cons q1 qs =>
                        rw [leafAt_cons_dict _ (by simp) (pylookup_pyinsert_self _ _ _),
                          leafAt_cons_none _ (by simp) hp,
                          hleaf (q1 :: qs) (by simp)]
                        by_cases hqr : q1 :: qs = r1 :: rs
                        · rw [if_pos hqr, if_pos (by rw [hqr])]
                        · rw [if_neg hqr, if_neg (by simp [hqr]), leafAt_nil _ (by simp)]
                  · have hk2 : ¬ p = k := fun h => hk h.symm
                    have hins := pylookup_pyinsert_ne d p k (Val.vdict sub') hk2
                    rw [if_neg (by simp [hk])]
                    cases qr with
                    | nil => rw [leafAt_single, leafAt_single, hins]
                    | cons q1 qs =>
                        rw [leafAt_cons _ _ _ (by simp), leafAt_cons _ _ _ (by simp), hins]
            · intro hd
              apply noEmptyD_pyinsert hd
              rw [noEmptyV]
              simp only [Bool.and_eq_true, decide_eq_true_eq]
              exact ⟨hsub_ne, hnoE rfl⟩
            · intro hdfm hd
              apply dotFreeD_pyinsert hd (hdfm p (by simp))
              rw [dotFreeV]
              exact hdf (fun s hs => hdfm s (List.mem_cons_of_mem _ hs)) rfl
            · intro hd
              apply allNodupD_pyinsert hd
              rw [allNodupV_vdict]
              exact hanod rfl
          · cases w with
            | vdict sub =>
                -- the segment holds a dictionary: recurse into it
                have hwalk' : ∀ q w, q ≠ [] → q <+: (r1 :: rs) → q ≠ r1 :: rs →
                    pathLookup sub q = some w → ∃ s, w = Val.vdict s := by
                  intro q w hq hpre hne hpl
                  refine hwalk (p :: q) w (by simp) ?_ (by simp [hne]) ?_
                  · exact (List.cons_prefix_cons).mpr ⟨rfl, hpre⟩
                  · rw [pathLookup_cons_dict q hq hp]
                    exact hpl
                have htgt' : pathLookup sub (r1 :: rs) = none := by
                  rw [pathLookup_cons_dict _ (by simp) hp] at htgt
                  exact htgt
                obtain ⟨sub', heq, hleaf, hnoE, hdf, hanod⟩ :=
                  ih sub v hscal hwalk' htgt' (by simp)
                have hsub_ne : sub' ≠ [] := by
                  intro hc
                  have := hleaf (r1 :: rs) (by simp)
                  rw [if_pos rfl, hc, leafAt_nil _ (by simp)] at this
                  exact Option.noConfusion this
                refine ⟨pyinsert d p (Val.vdict sub'), ?_, ?_, ?_, ?_, ?_⟩
                · rw [unflattenInsert, hp]
                  show (unflattenInsert sub (r1 :: rs) v).map
                    (fun s => pyinsert d p (Val.vdict s)) = _
                  rw [heq]
                  rfl
                · intro q hq
                  cases q with
                  | nil => exact absurd rfl hq
                  | cons k qr =>
                      by_cases hk : k = p
                      · subst hk
                        cases qr with
                        | nil =>
                            rw [if_neg (by simp),
                              leafAt_single_dict (pylookup_pyinsert_self _ _ _),
                              leafAt_single_dict hp]
                        | cons q1 qs =>
                            rw [leafAt_cons_dict _ (by simp) (pylookup_pyinsert_self _ _ _),
                              leafAt_cons_dict _ (by simp) hp,
                              hleaf (q1 :: qs) (by simp)]
                            by_cases hqr : q1 :: qs = r1 :: rs
                            · rw [if_pos hqr, if_pos (by rw [hqr])]
                            · rw [if_neg hqr, if_neg (by simp [hqr])]
                      · have hk2 : ¬ p = k := fun h => hk h.symm
                        have hins := pylookup_pyinsert_ne d p k (Val.vdict sub') hk2
                        rw [if_neg (by simp [hk])]
                        cases qr with
                        | nil => rw [leafAt_single, leafAt_single, hins]
                        | cons q1 qs =>
                            rw [leafAt_cons _ _ _ (by simp), leafAt_cons _ _ _ (by simp), hins]
                · intro hd
                  apply noEmptyD_pyinsert hd
                  rw [noEmptyV]
                  simp only [Bool.and_eq_true, decide_eq_true_eq]
                  have hsubE := noEmptyD_lookup hd hp
                  rw [noEmptyV] at hsubE
                  simp only [Bool.and_eq_true, decide_eq_true_eq] at hsubE
                  exact ⟨hsub_ne, hnoE hsubE.2⟩
                · intro hdfm hd
                  apply dotFreeD_pyinsert hd (hdfm p (by simp))
                  rw [dotFreeV]
                  have hsubF := dotFreeD_lookup hd hp
                  rw [dotFreeV] at hsubF
                  exact hdf (fun s hs => hdfm s (List.mem_cons_of_mem _ hs)) hsubF
                · intro hd
                  apply allNodupD_pyinsert hd
                  rw [allNodupV_vdict]
                  have hsubN := allNodupD_lookup hd hp
                  rw [allNodupV_vdict] at hsubN
                  exact hanod hsubN
            | vnone =>
                exfalso
                obtain ⟨s, hs⟩ := hwalk [p] Val.vnone (by simp) ⟨r1 :: rs, rfl⟩ (by simp)
                  (by rw [pathLookup_single]; exact hp)
                exact Val.noConfusion hs
            | vstr s0 =>
                exfalso
                obtain ⟨s, hs⟩ := hwalk [p] (Val.vstr s0) (by simp) ⟨r1 :: rs, rfl⟩ (by simp)
                  (by rw [pathLookup_single]; exact hp)
                exact Val.noConfusion hs
            | vbool s0 =>
                exfalso
                obtain ⟨s, hs⟩ := hwalk [p] (Val.vbool s0) (by simp) ⟨r1 :: rs, rfl⟩ (by simp)
                  (by rw [pathLookup_single]; exact hp)
                exact Val.noConfusion hs
            | vint s0 =>
                exfalso
                obtain ⟨s, hs⟩ := hwalk [p] (Val.vint s0) (by simp) ⟨r1 :: rs, rfl⟩ (by simp)
                  (by rw [pathLookup_single]; exact hp)
                exact Val.noConfusion hs

theorem leafAt_of_scalar {d : D} {q : List Str} {w : Val} (h : pathLookup d q = some w)
    (hw : isScalar w = true) : leafAt d q = some w := by
  rw [leafAt, h]
  simp [hw]

theorem leafAt_eq_some {d : D} {q : List Str} {w : Val} :
    leafAt d q = some w ↔ pathLookup d q = some w ∧ isScalar w = true := by
  rw [leafAt]
  rcases h : pathLookup d q with _ | v
  · simp
  · constructor
    · intro hx
      by_cases hv : isScalar v = true
      · have h2 : some v = some w := by simpa [hv] using hx
        obtain rfl : v = w := Option.some.inj h2
        exact ⟨rfl, hv⟩
      · exfalso
        simp [hv] at hx
    · rintro ⟨h1, h2⟩
      obtain rfl : v = w := Option.some.inj h1
      simp [h2]

/-- Lookup in the segment-keyed image of a flat map. -/
theorem seg_lookup_mem {m : List (Str × Val)} {q : List Str} {v : Val}
    (h : pylookup (m.map (fun kv => (kv.1.splitOn '.', kv.2))) q = some v) :
    ∃ k0, (k0, v) ∈ m ∧ k0.splitOn '.' = q := by
  have hmem := pylookup_mem _ _ _ h
  obtain ⟨⟨k0, v0⟩, hkv, hpair⟩ := List.mem_map.mp hmem
  simp only [Prod.mk.injEq] at hpair
  obtain ⟨h1, h2⟩ := hpair
  subst h2
  exact ⟨k0, hkv, h1⟩

/-- `unflatten_dict` on a well-formed, prefix-free, scalar-valued flat
map succeeds and produces exactly one leaf per key (at its
dot-segment path), a tree with no empty or duplicated dictionaries and
dot-free keys. -/
theorem unflatten_dict_spec :
    ∀ (m : List (Str × Val)),
      (∀ kv ∈ m, isScalar kv.2 = true) →
      ((m.map Prod.fst).Nodup) →
      (∀ kv1 ∈ m, ∀ kv2 ∈ m, kv1.1 ≠ kv2.1 →
        ¬ ((kv1.1.splitOn '.') <+: (kv2.1.splitOn '.'))) →
      ∃ T, unflatten_dict m = some T
        ∧ (∀ q, q ≠ [] →
            leafAt T q = pylookup (m.map (fun kv => (kv.1.splitOn '.', kv.2))) q)
        ∧ noEmptyD T = true ∧ dotFreeD T = true ∧ allNodupD T = true := by
  intro m
  induction m using List.reverseRecOn with
  | nil =>
      intro _ _ _
      exact ⟨[], rfl, fun q hq => by rw [leafAt_nil q hq]; rfl, rfl, rfl, rfl⟩
  | append_singleton l kv ih =>
      intro hscal hnodup hpf
      obtain ⟨klast, vlast⟩ := kv
      have hnd2 := hnodup
      rw [List.map_append, List.nodup_append] at hnd2
      have hlast_not : klast ∉ l.map Prod.fst := by
        intro hc
        exact hnd2.2.2 hc (by simp)
      obtain ⟨T, hT, hleafT, hnoE, hdfT, hanodT⟩ :=
        ih (fun kv h => hscal kv (List.mem_append_left _ h)) hnd2.1
          (fun kv1 h1 kv2 h2 =>
            hpf kv1 (List.mem_append_left _ h1) kv2 (List.mem_append_left _ h2))
      have hparts_ne : klast.splitOn '.' ≠ [] := splitOn_ne_nil '.' klast
      -- no leaf of `T` sits at a path comparable with the new key path
      have hnotleaf : ∀ q, q ≠ [] → (klast.splitOn '.') <+: q →
          leafAt T q = none := by
        intro q hq hqpre
        rcases hfl : leafAt T q with _ | w
        · rfl
        · exfalso
          rw [hleafT q hq] at hfl
          obtain ⟨k0, hk0, hsplit⟩ := seg_lookup_mem hfl
          by_cases hkk : k0 = klast
          · subst hkk
            have : k0.splitOn '.' = q := hsplit
            have hq_eq : q = k0.splitOn '.' := this.symm
            -- q both extends and equals the path of k0: fine, but then
            -- klast ∈ l contradicts nodup
            exact hlast_not (List.mem_map.mpr ⟨(k0, w), hk0, rfl⟩)
          · by_cases hq_eq : q = klast.splitOn '.'
            · have : k0 = klast := splitOn_injective '.' _ _ (by rw [hsplit, hq_eq])
              exact hkk this
            · exact hpf (klast, vlast) (List.mem_append_right _ (by simp))
                (k0, w) (List.mem_append_left _ hk0)
                (fun h => hkk h.symm) (by rw [hsplit]; exact hqpre)
      have hwalk : ∀ q w, q ≠ [] → q <+: (klast.splitOn '.') → q ≠ klast.splitOn '.' →
          pathLookup T q = some w → ∃ sub, w = Val.vdict sub := by
        intro q w hq hqpre hqne hpl
        by_cases hws : isScalar w = true
        · exfalso
          have hfl : leafAt T q = some w := leafAt_of_scalar hpl hws
          rw [hleafT q hq] at hfl
          obtain ⟨k0, hk0, hsplit⟩ := seg_lookup_mem hfl
          have hkk : k0 ≠ klast := by
            rintro rfl
            exact hqne hsplit.symm
          exact hpf (k0, w) (List.mem_append_left _ hk0)
            (klast, vlast) (List.mem_append_right _ (by simp))
            hkk (by rw [hsplit]; exact hqpre)
        · cases w with
          | vdict sub => exact ⟨sub, rfl⟩
          | vstr s => simp [isScalar] at hws
          | vbool s => simp [isScalar] at hws
          | vint s => simp [isScalar] at hws
          | vnone => simp [isScalar] at hws
      have htgt : pathLookup T (klast.splitOn '.') = none := by
        rcases hpt : pathLookup T (klast.splitOn '.') with _ | w
        · rfl
        · exfalso
          cases w with
          | vdict sub =>
              have hne := pathLookup_noEmpty _ _ _ hnoE hparts_ne hpt
              rw [noEmptyV] at hne
              simp only [Bool.and_eq_true, decide_eq_true_eq] at hne
              obtain ⟨ext, w', hext, hple, hws'⟩ :=
                dict_leaf_below (sizeOf sub) sub le_rfl hne.2 hne.1
              have hfull : pathLookup T (klast.splitOn '.' ++ ext) = some w' := by
                rw [pathLookup_append, hpt]
                exact hple
              have hfl : leafAt T (klast.splitOn '.' ++ ext) = some w' :=
                leafAt_of_scalar hfull hws'
              have := hnotleaf (klast.splitOn '.' ++ ext)
                (by simp [hparts_ne]) ⟨ext, rfl⟩
              rw [this] at hfl
              exact Option.noConfusion hfl
          | vstr s =>
              have hfl := leafAt_of_scalar hpt (by simp [isScalar])
              rw [hnotleaf _ hparts_ne (by simp)] at hfl
              exact Option.noConfusion hfl
          | vbool s =>
              have hfl := leafAt_of_scalar hpt (by simp [isScalar])
              rw [hnotleaf _ hparts_ne (by simp)] at hfl
              exact Option.noConfusion hfl
          | vint s =>
              have hfl := leafAt_of_scalar hpt (by simp [isScalar])
              rw [hnotleaf _ hparts_ne (by simp)] at hfl
              exact Option.noConfusion hfl
          | vnone =>
              have hfl := leafAt_of_scalar hpt (by simp [isScalar])
              rw [hnotleaf _ hparts_ne (by simp)] at hfl
              exact Option.noConfusion hfl
      obtain ⟨T', hT', hleaf', hnoE', hdf', hanod'⟩ :=
        unflattenInsert_spec (klast.splitOn '.') T vlast
          (hscal (klast, vlast) (List.mem_append_right _ (by simp)))
          hwalk htgt hparts_ne
      refine ⟨T', ?_, ?_, hnoE' hnoE,
        hdf' (fun s hs => mem_splitOn_not_sep klast '.' s hs) hdfT, hanod' hanodT⟩
      · rw [unflatten_dict, List.foldlM_append]
        rw [unflatten_dict] at hT
        rw [hT]
        show (unflattenInsert T (klast.splitOn '.') vlast).bind _ = some T'
        rw [hT']
        rfl
      · intro q hq
        rw [hleaf' q hq, List.map_append, pylookup_append]
        by_cases hqp : q = klast.splitOn '.'
        · subst hqp
          have hnone : pylookup (l.map (fun kv => (kv.1.splitOn '.', kv.2)))
              (klast.splitOn '.') = none := by
            rcases hx : pylookup (l.map (fun kv => (kv.1.splitOn '.', kv.2)))
                (klast.splitOn '.') with _ | v
            · exact hx
            · exfalso
              obtain ⟨k0, hk0, hsplit⟩ := seg_lookup_mem hx
              have : k0 = klast := splitOn_injective '.' _ _ hsplit
              subst this
              exact hlast_not (List.mem_map.mpr ⟨(k0, v), hk0, rfl⟩)
          rw [hnone]
          simp [pylookup]
        · rw [if_neg hqp, hleafT q hq]
          rcases hx : pylookup (l.map (fun kv => (kv.1.splitOn '.', kv.2))) q with _ | v
          · have hc : ¬ (klast.splitOn '.' = q) := fun h => hqp h.symm
            rw [hx]
            simp [pylookup, hc]
          · simp [hx]

/-! ## Stage 4: `flatten_dict` characterization -/

theorem intercalate_single_chunk {α : Type} (c : α) (k : List α) :
    ([c] : List α).intercalate [k] = k := by
  simp [List.intercalate]

theorem intercalate_cons_chunk {α : Type} (c : α) (k : List α) (rr : List (List α))
    (h : rr ≠ []) :
    ([c] : List α).intercalate (k :: rr) = k ++ c :: ([c] : List α).intercalate rr := by
  rcases rr with _ | ⟨b, l⟩
  · exact absurd rfl h
  · simp [List.intercalate, List.intersperse_cons_cons]

theorem splitOn_eq_single {α : Type} [DecidableEq α] {c : α} {s k : List α}
    (h : s.splitOn c = [k]) : s = k := by
  have h2 := @List.intercalate_splitOn _ s c _
  rw [h, intercalate_single_chunk] at h2
  exact h2.symm

theorem splitOn_eq_cons {α : Type} [DecidableEq α] {c : α} {s k : List α}
    {rr : List (List α)} (h : s.splitOn c = k :: rr) (hrr : rr ≠ []) :
    s = k ++ c :: ([c] : List α).intercalate rr := by
  have h2 := @List.intercalate_splitOn _ s c _
  rw [h, intercalate_cons_chunk c k rr hrr] at h2
  exact h2.symm

theorem pyinsert_not_mem {κ α : Type} [DecidableEq κ] (d : List (κ × α)) (k : κ) (v : α)
    (h : k ∉ d.map Prod.fst) : pyinsert d k v = d ++ [(k, v)] := by
  induction d with
  | nil => simp [pyinsert]
  | cons hd t ih =>
      obtain ⟨k0, v0⟩ := hd
      simp only [List.map_cons, List.mem_cons, not_or] at h
      rw [pyinsert, if_neg (fun hc => h.1 hc.symm), List.cons_append, ih h.2]

theorem foldl_pyinsert_eq_append {κ α : Type} [DecidableEq κ] :
    ∀ (l acc : List (κ × α)), ((l.map Prod.fst).Nodup) →
      (∀ k ∈ l.map Prod.fst, k ∉ acc.map Prod.fst) →
      l.foldl (fun d kv => pyinsert d kv.1 kv.2) acc = acc ++ l := by
  intro l
  induction l with
  | nil => intro acc _ _; simp
  | cons hd t ih =>
      intro acc hnd hdisj
      obtain ⟨k, v⟩ := hd
      simp only [List.map_cons, List.nodup_cons] at hnd
      have h1 : pyinsert acc k v = acc ++ [(k, v)] :=
        pyinsert_not_mem acc k v (hdisj k (by simp))
      have hdisj2 : ∀ k' ∈ t.map Prod.fst, k' ∉ (acc ++ [(k, v)]).map Prod.fst := by
        intro k' hk' hc
        rw [List.map_append] at hc
        rcases List.mem_append.mp hc with hc | hc
        · exact hdisj k' (by simp [hk']) hc
        · simp only [List.map_cons, List.map_nil, List.mem_singleton] at hc
          subst hc
          exact hnd.1 hk'
      rw [List.foldl_cons, h1, ih (acc ++ [(k, v)]) hnd.2 hdisj2, List.append_assoc]
      rfl

theorem dictOf_nodup_id {κ α : Type} [DecidableEq κ] (l : List (κ × α))
    (h : (l.map Prod.fst).Nodup) : dictOf l = l := by
  rw [dictOf, foldl_pyinsert_eq_append l [] h (by simp)]
  rfl

theorem flattenVal_scalar {v : Val} (h : isScalar v = true) (nk : Str) :
    flattenVal v nk = [(nk, v)] := by
  cases v <;> simp_all [flattenVal, isScalar]

theorem leafAt_head_ne {k r1 : Str} {v : Val} {t : D} (h : k ≠ r1) (rr : List Str) :
    leafAt ((k, v) :: t) (r1 :: rr) = leafAt t (r1 :: rr) := by
  have hp : pylookup ((k, v) :: t) r1 = pylookup t r1 := by
    simp [pylookup, h]
  cases rr with
  | nil => rw [leafAt_single, leafAt_single, hp]
  | cons b l =>
      rw [leafAt_cons _ _ _ (by simp), leafAt_cons _ _ _ (by simp), hp]

theorem leafAt_head_mem {d : D} {q1 : Str} {qr : List Str} {w : Val}
    (h : leafAt d (q1 :: qr) = some w) : q1 ∈ d.map Prod.fst := by
  rw [← pylookup_isSome_iff]
  cases qr with
  | nil =>
      rw [leafAt_single] at h
      rcases hp : pylookup d q1 with _ | v
      · rw [hp] at h; exact Option.noConfusion h
      · rfl
  | cons b l =>
      rw [leafAt_cons _ _ _ (by simp)] at h
      rcases hp : pylookup d q1 with _ | v
      · rw [hp] at h; exact Option.noConfusion h
      · rfl

theorem dot_ext_inj {parent a b : Str} (h : parent ++ '.' :: a = parent ++ '.' :: b) :
    a = b := by
  have h2 : ('.') :: a = ('.') :: b := (List.append_right_inj parent).mp h
  exact (List.cons.inj h2).2

theorem splitOn_exists_cons {α : Type} [DecidableEq α] (c : α) (s : List α) :
    ∃ r1 rr, s.splitOn c = r1 :: rr := by
  rcases h : s.splitOn c with _ | ⟨a, b⟩
  · exact absurd h (splitOn_ne_nil c s)
  · exact ⟨a, b, rfl⟩

/-- Characterization of the flat items contributed below a non-empty
joined parent key: the binding at `parent ++ '.' ++ rest` stores the
leaf of the subtree at the segment path of `rest`, every key not of
that form is absent, and the contributed keys are distinct. -/
theorem flattenItems_lookup :
    ∀ (n : Nat) (T : D) (parent : Str), sizeOf T ≤ n → parent ≠ [] →
      allNodupD T = true → noEmptyD T = true → dotFreeD T = true →
      ((∀ rest : Str,
          pylookup (flattenItems T parent) (parent ++ '.' :: rest)
            = leafAt T (rest.splitOn '.'))
        ∧ (∀ s : Str, (∀ rest : Str, s ≠ parent ++ '.' :: rest) →
            pylookup (flattenItems T parent) s = none)
        ∧ (((flattenItems T parent).map Prod.fst).Nodup)) := by
  intro n
  induction n with
  | zero =>
      intro T parent hsz hpar hnodup hnoE hdf
      exact absurd hsz (by have := sizeOf_D_pos T; omega)
  | succ n ih =>
      intro T parent hsz hpar hnodup hnoE hdf
      cases T with
      | nil =>
          refine ⟨?_, ?_, ?_⟩
          · intro rest
            rw [leafAt_nil _ (splitOn_ne_nil '.' rest)]
            rfl
          · intro s _
            rfl
          · simp [flattenItems]
      | cons hd t =>
          obtain ⟨k, v⟩ := hd
          simp only [List.cons.sizeOf_spec, Prod.mk.sizeOf_spec] at hsz
          have ht_sz : sizeOf t ≤ n := by omega
          rw [allNodupD] at hnodup
          simp only [Bool.and_eq_true, decide_eq_true_eq] at hnodup
          rw [noEmptyD] at hnoE
          simp only [Bool.and_eq_true] at hnoE
          rw [dotFreeD] at hdf
          simp only [Bool.and_eq_true, decide_eq_true_eq] at hdf
          obtain ⟨iht1, iht2, iht3⟩ := ih t parent ht_sz hpar hnodup.2 hnoE.2 hdf.2
          by_cases hvsc : isScalar v = true
          · -- scalar child: one flat binding at `parent ++ '.' ++ k`
            have hfs : flattenItems ((k, v) :: t) parent
                = (parent ++ '.' :: k, v) :: flattenItems t parent := by
              simp only [flattenItems, if_neg hpar, flattenVal_scalar hvsc,
                List.singleton_append]
            refine ⟨?_, ?_, ?_⟩
            · intro rest
              rw [hfs, pylookup]
              by_cases hkr : k = rest
              · subst hkr
                rw [if_pos rfl, splitOn_no_sep '.' k hdf.1.1,
                  leafAt_single_some
                    (show pylookup ((k, v) :: t) k = some v by simp [pylookup]) hvsc]
              · rw [if_neg (fun h => hkr (dot_ext_inj h)), iht1 rest]
                obtain ⟨r1, rr, hsp⟩ := splitOn_exists_cons '.' rest
                rw [hsp]
                by_cases hr1 : k = r1
                · subst hr1
                  rcases rr with _ | ⟨b, l⟩
                  · exact absurd (splitOn_eq_single hsp).symm hkr
                  · rw [leafAt_cons_none _ (by simp)
                        ((pylookup_eq_none_iff t k).mpr hnodup.1.1),
                      leafAt_cons_scalar _ (by simp)
                        (show pylookup ((k, v) :: t) k = some v by simp [pylookup]) hvsc]
                · rw [leafAt_head_ne hr1 rr]
            · intro s hs
              rw [hfs, pylookup, if_neg (fun h => hs k h.symm)]
              exact iht2 s hs
            · rw [hfs, List.map_cons, List.nodup_cons]
              refine ⟨?_, iht3⟩
              intro hc
              have h1 : (pylookup (flattenItems t parent)
                  (parent ++ '.' :: k)).isSome = true :=
                (pylookup_isSome_iff _ _).mpr hc
              rw [iht1 k, splitOn_no_sep '.' k hdf.1.1,
                leafAt_single_none ((pylookup_eq_none_iff t k).mpr hnodup.1.1)] at h1
              simp at h1
          · -- dictionary child: a whole block of flat bindings below
            -- `parent ++ '.' ++ k ++ '.'`
            obtain ⟨sub, rfl⟩ : ∃ sub, v = Val.vdict sub := by
              cases v with
              | vdict d => exact ⟨d, rfl⟩
              | vstr a => exact absurd (by simp [isScalar]) hvsc
              | vbool a => exact absurd (by simp [isScalar]) hvsc
              | vint a => exact absurd (by simp [isScalar]) hvsc
              | vnone => exact absurd (by simp [isScalar]) hvsc
            have hasub : allNodupD sub = true := allNodupV_vdict sub ▸ hnodup.1.2
            have hne2 := hnoE.1
            rw [noEmptyV] at hne2
            simp only [Bool.and_eq_true, decide_eq_true_eq] at hne2
            have hdsub : dotFreeD sub = true := by
              have := hdf.1.2
              rwa [dotFreeV] at this
            simp only [Val.vdict.sizeOf_spec] at hsz
            have hsub_sz : sizeOf sub ≤ n := by omega
            obtain ⟨ihs1, ihs2, ihs3⟩ :=
              ih sub (parent ++ '.' :: k) hsub_sz (by simp) hasub hne2.2 hdsub
            have hfd : flattenItems ((k, Val.vdict sub) :: t) parent
                = flattenItems sub (parent ++ '.' :: k) ++ flattenItems t parent := by
              simp only [flattenItems, if_neg hpar, flattenVal]
              rw [dictOf_nodup_id _ ihs3]
            refine ⟨?_, ?_, ?_⟩
            · intro rest
              rw [hfd, pylookup_append]
              by_cases hex : ∃ rest2, rest = k ++ '.' :: rest2
              · obtain ⟨rest2, rfl⟩ := hex
                have hbranch : pylookup (flattenItems sub (parent ++ '.' :: k))
                    (parent ++ '.' :: (k ++ '.' :: rest2))
                    = leafAt sub (rest2.splitOn '.') := by
                  have hform : parent ++ '.' :: (k ++ '.' :: rest2)
                      = (parent ++ '.' :: k) ++ '.' :: rest2 := by simp
                  rw [hform]
                  exact ihs1 rest2
                rw [hbranch]
                have hsp2 : (k ++ '.' :: rest2).splitOn '.' = k :: rest2.splitOn '.' :=
                  splitOn_sep_append '.' k rest2 hdf.1.1
                rw [hsp2, leafAt_cons_dict _ (splitOn_ne_nil '.' rest2)
                  (show pylookup ((k, Val.vdict sub) :: t) k = some (Val.vdict sub) by
                    simp [pylookup])]
                rcases hls : leafAt sub (rest2.splitOn '.') with _ | w
                · show pylookup (flattenItems t parent)
                      (parent ++ '.' :: (k ++ '.' :: rest2)) = none
                  rw [iht1 (k ++ '.' :: rest2), hsp2,
                    leafAt_cons_none _ (splitOn_ne_nil '.' rest2)
                      ((pylookup_eq_none_iff t k).mpr hnodup.1.1)]
                · rfl
              · have hnos : ∀ rest2, parent ++ '.' :: rest
                    ≠ (parent ++ '.' :: k) ++ '.' :: rest2 := by
                  intro rest2 h
                  have h2 : parent ++ '.' :: rest
                      = parent ++ '.' :: (k ++ '.' :: rest2) := by
                    rw [h]; simp
                  exact hex ⟨rest2, dot_ext_inj h2⟩
                rw [ihs2 _ hnos]
                show pylookup (flattenItems t parent) (parent ++ '.' :: rest)
                    = leafAt ((k, Val.vdict sub) :: t) (rest.splitOn '.')
                rw [iht1 rest]
                obtain ⟨r1, rr, hsp⟩ := splitOn_exists_cons '.' rest
                rw [hsp]
                by_cases hr1 : k = r1
                · subst hr1
                  rcases rr with _ | ⟨b, l⟩
                  · rw [leafAt_single_none ((pylookup_eq_none_iff t k).mpr hnodup.1.1),
                      leafAt_single_dict
                        (show pylookup ((k, Val.vdict sub) :: t) k
                            = some (Val.vdict sub) by simp [pylookup])]
                  · exact absurd ⟨_, splitOn_eq_cons hsp (by simp)⟩ hex
                · rw [leafAt_head_ne hr1 rr]
            · intro s hs
              rw [hfd, pylookup_append]
              have hbr : pylookup (flattenItems sub (parent ++ '.' :: k)) s = none := by
                apply ihs2 s
                intro rest2 h
                exact hs (k ++ '.' :: rest2) (by rw [h]; simp)
              rw [hbr]
              show pylookup (flattenItems t parent) s = none
              exact iht2 s hs
            · rw [hfd, List.map_append, List.nodup_append]
              refine ⟨ihs3, iht3, ?_⟩
              intro s hs1 hs2
              have h1 : (pylookup (flattenItems sub (parent ++ '.' :: k)) s).isSome
                  = true := (pylookup_isSome_iff _ _).mpr hs1
              have hex2 : ∃ rest2, s = (parent ++ '.' :: k) ++ '.' :: rest2 := by
                by_contra hno
                push_neg at hno
                rw [ihs2 s hno] at h1
                simp at h1
              obtain ⟨rest2, rfl⟩ := hex2
              have h2 : (pylookup (flattenItems t parent)
                  ((parent ++ '.' :: k) ++ '.' :: rest2)).isSome = true :=
                (pylookup_isSome_iff _ _).mpr hs2
              have hform2 : (parent ++ '.' :: k) ++ '.' :: rest2
                  = parent ++ '.' :: (k ++ '.' :: rest2) := by simp
              rw [hform2, iht1 (k ++ '.' :: rest2),
                splitOn_sep_append '.' k rest2 hdf.1.1,
                leafAt_cons_none _ (splitOn_ne_nil '.' rest2)
                  ((pylookup_eq_none_iff t k).mpr hnodup.1.1)] at h2
              simp at h2

/-- Root-level characterization of the flat items of `flatten_dict`:
under the falsy-parent quirk the top-level keys are used verbatim, so
assuming no top-level binding with the empty key holds a dictionary,
every lookup in the item list equals the leaf at the dot-segment path
and the keys are distinct. -/
theorem flattenItems_root :
    ∀ (T : D),
      allNodupD T = true → noEmptyD T = true → dotFreeD T = true →
      (∀ kv ∈ T, kv.1 = [] → isScalar kv.2 = true) →
      ((∀ s : Str, pylookup (flattenItems T []) s = leafAt T (s.splitOn '.'))
        ∧ (((flattenItems T []).map Prod.fst).Nodup)) := by
  intro T
  induction T with
  | nil =>
      intro _ _ _ _
      refine ⟨?_, by simp [flattenItems]⟩
      intro s
      rw [leafAt_nil _ (splitOn_ne_nil '.' s)]
      rfl
  | cons hd t ih =>
      intro hnodup hnoE hdf hroot
      obtain ⟨k, v⟩ := hd
      rw [allNodupD] at hnodup
      simp only [Bool.and_eq_true, decide_eq_true_eq] at hnodup
      rw [noEmptyD] at hnoE
      simp only [Bool.and_eq_true] at hnoE
      rw [dotFreeD] at hdf
      simp only [Bool.and_eq_true, decide_eq_true_eq] at hdf
      obtain ⟨iht1, iht3⟩ := ih hnodup.2 hnoE.2 hdf.2
        (fun kv h => hroot kv (List.mem_cons_of_mem _ h))
      by_cases hvsc : isScalar v = true
      · have hfs : flattenItems ((k, v) :: t) []
            = (k, v) :: flattenItems t [] := by
          simp only [flattenItems, eq_self_iff_true, if_true, flattenVal_scalar hvsc,
            List.singleton_append]
        refine ⟨?_, ?_⟩
        · intro s
          rw [hfs, pylookup]
          by_cases hks : k = s
          · subst hks
            rw [if_pos rfl, splitOn_no_sep '.' k hdf.1.1,
              leafAt_single_some
                (show pylookup ((k, v) :: t) k = some v by simp [pylookup]) hvsc]
          · rw [if_neg hks, iht1 s]
            obtain ⟨r1, rr, hsp⟩ := splitOn_exists_cons '.' s
            rw [hsp]
            by_cases hr1 : k = r1
            · subst hr1
              rcases rr with _ | ⟨b, l⟩
              · exact absurd (splitOn_eq_single hsp).symm hks
              · rw [leafAt_cons_none _ (by simp)
                    ((pylookup_eq_none_iff t k).mpr hnodup.1.1),
                  leafAt_cons_scalar _ (by simp)
                    (show pylookup ((k, v) :: t) k = some v by simp [pylookup]) hvsc]
            · rw [leafAt_head_ne hr1 rr]
        · rw [hfs, List.map_cons, List.nodup_cons]
          refine ⟨?_, iht3⟩
          intro hc
          have h1 : (pylookup (flattenItems t []) k).isSome = true :=
            (pylookup_isSome_iff _ _).mpr hc
          rw [iht1 k, splitOn_no_sep '.' k hdf.1.1,
            leafAt_single_none ((pylookup_eq_none_iff t k).mpr hnodup.1.1)] at h1
          simp at h1
      · obtain ⟨sub, rfl⟩ : ∃ sub, v = Val.vdict sub := by
          cases v with
          | vdict d => exact ⟨d, rfl⟩
          | vstr a => exact absurd (by simp [isScalar]) hvsc
          | vbool a => exact absurd (by simp [isScalar]) hvsc
          | vint a => exact absurd (by simp [isScalar]) hvsc
          | vnone => exact absurd (by simp [isScalar]) hvsc
        have hk_ne : k ≠ [] := by
          intro h
          exact hvsc (hroot (k, Val.vdict sub) (by simp) h)
        have hasub : allNodupD sub = true := allNodupV_vdict sub ▸ hnodup.1.2
        have hne2 := hnoE.1
        rw [noEmptyV] at hne2
        simp only [Bool.and_eq_true, decide_eq_true_eq] at hne2
        have hdsub : dotFreeD sub = true := by
          have := hdf.1.2
          rwa [dotFreeV] at this
        obtain ⟨ihs1, ihs2, ihs3⟩ :=
          flattenItems_lookup (sizeOf sub) sub k le_rfl hk_ne hasub hne2.2 hdsub
        have hfd : flattenItems ((k, Val.vdict sub) :: t) []
            = flattenItems sub k ++ flattenItems t [] := by
          simp only [flattenItems, eq_self_iff_true, if_true, flattenVal]
          rw [dictOf_nodup_id _ ihs3]
        refine ⟨?_, ?_⟩
        · intro s
          rw [hfd, pylookup_append]
          by_cases hex : ∃ rest2, s = k ++ '.' :: rest2
          · obtain ⟨rest2, rfl⟩ := hex
            rw [ihs1 rest2]
            have hsp2 : (k ++ '.' :: rest2).splitOn '.' = k :: rest2.splitOn '.' :=
              splitOn_sep_append '.' k rest2 hdf.1.1
            rw [hsp2, leafAt_cons_dict _ (splitOn_ne_nil '.' rest2)
              (show pylookup ((k, Val.vdict sub) :: t) k = some (Val.vdict sub) by
                simp [pylookup])]
            rcases hls : leafAt sub (rest2.splitOn '.') with _ | w
            · show pylookup (flattenItems t []) (k ++ '.' :: rest2) = none
              rw [iht1 (k ++ '.' :: rest2), hsp2,
                leafAt_cons_none _ (splitOn_ne_nil '.' rest2)
                  ((pylookup_eq_none_iff t k).mpr hnodup.1.1)]
            · rfl
          · have hnos : ∀ rest2, s ≠ k ++ '.' :: rest2 :=
              fun rest2 h => hex ⟨rest2, h⟩
            rw [ihs2 _ hnos]
            show pylookup (flattenItems t []) s
                = leafAt ((k, Val.vdict sub) :: t) (s.splitOn '.')
            rw [iht1 s]
            obtain ⟨r1, rr, hsp⟩ := splitOn_exists_cons '.' s
            rw [hsp]
            by_cases hr1 : k = r1
            · subst hr1
              rcases rr with _ | ⟨b, l⟩
              · rw [leafAt_single_none ((pylookup_eq_none_iff t k).mpr hnodup.1.1),
                  leafAt_single_dict
                    (show pylookup ((k, Val.vdict sub) :: t) k
                        = some (Val.vdict sub) by simp [pylookup])]
              · exact absurd ⟨_, splitOn_eq_cons hsp (by simp)⟩ hex
            · rw [leafAt_head_ne hr1 rr]
        · rw [hfd, List.map_append, List.nodup_append]
          refine ⟨ihs3, iht3, ?_⟩
          intro s hs1 hs2
          have h1 : (pylookup (flattenItems sub k) s).isSome = true :=
            (pylookup_isSome_iff _ _).mpr hs1
          have hex2 : ∃ rest2, s = k ++ '.' :: rest2 := by
            by_contra hno
            push_neg at hno
            rw [ihs2 s hno] at h1
            simp at h1
          obtain ⟨rest2, rfl⟩ := hex2
          have h2 : (pylookup (flattenItems t []) (k ++ '.' :: rest2)).isSome = true :=
            (pylookup_isSome_iff _ _).mpr hs2
          rw [iht1 (k ++ '.' :: rest2),
            splitOn_sep_append '.' k rest2 hdf.1.1,
            leafAt_cons_none _ (splitOn_ne_nil '.' rest2)
              ((pylookup_eq_none_iff t k).mpr hnodup.1.1)] at h2
          simp at h2

/-- `flatten_dict` of a well-formed tree looks up exactly the leaf at
the dot-segment path of the queried key. -/
theorem flatten_dict_lookup (T : D)
    (h1 : allNodupD T = true) (h2 : noEmptyD T = true) (h3 : dotFreeD T = true)
    (h4 : ∀ kv ∈ T, kv.1 = [] → isScalar kv.2 = true) :
    ∀ s : Str, pylookup (flatten_dict T) s = leafAt T (s.splitOn '.') := by
  intro s
  obtain ⟨g1, g3⟩ := flattenItems_root T h1 h2 h3 h4
  rw [flatten_dict, dictOf_nodup_id _ g3]
  exact g1 s

/-- Lookup in the segment-keyed image of a flat map agrees with lookup
in the flat map itself, because `splitOn` is injective. -/
theorem pylookup_seg_image (m : List (Str × Val)) (s : Str) :
    pylookup (m.map (fun kv => (kv.1.splitOn '.', kv.2))) (s.splitOn '.')
      = pylookup m s := by
  induction m with
  | nil => rfl
  | cons hd t ih =>
      obtain ⟨k0, v0⟩ := hd
      by_cases h : k0 = s
      · subst h
        simp [pylookup]
      · have h2 : k0.splitOn '.' ≠ s.splitOn '.' :=
          fun hc => h (splitOn_injective '.' _ _ hc)
        simp [pylookup, h, h2, ih]

/-- C3 (amended): for every flat map with scalar values, distinct keys,
no key whose dot-segment path is a strict prefix of another key's
path, **and no key beginning with the separator `.`**,
`unflatten_dict` succeeds and `flatten_dict` of the resulting nested
dictionary is `==`-equal (Python dictionary equality) to the original
flat map.  The extra no-leading-separator condition is required: the
falsy-parent test `if parent_key` in `flatten_dict` treats an empty
first segment as "no parent" and silently drops the leading separator
(`c3_counterexample_leading_dot_key`). -/
theorem c3_amended_flatten_unflatten_roundtrip :
    ∀ (m : List (Str × Val)),
      (∀ kv ∈ m, isScalar kv.2 = true) →
      ((m.map Prod.fst).Nodup) →
      (∀ kv1 ∈ m, ∀ kv2 ∈ m, kv1.1 ≠ kv2.1 →
        ¬ ((kv1.1.splitOn '.') <+: (kv2.1.splitOn '.'))) →
      (∀ kv ∈ m, kv.1.head? ≠ some '.') →
      ∃ T, unflatten_dict m = some T
        ∧ pyEqD (flatten_dict T) m = true := by
  intro m hscal hnodup hpf hnd
  obtain ⟨T, hT, hleaf, hnoE, hdf, hanod⟩ := unflatten_dict_spec m hscal hnodup hpf
  have hroot : ∀ kv ∈ T, kv.1 = [] → isScalar kv.2 = true := by
    intro kv hkv hk1
    obtain ⟨k1, v1⟩ := kv
    have hk1' : k1 = [] := hk1
    subst hk1'
    by_contra hsc
    obtain ⟨sub, rfl⟩ : ∃ sub, v1 = Val.vdict sub := by
      cases v1 with
      | vdict d => exact ⟨d, rfl⟩
      | vstr a => exact absurd (by simp [isScalar]) hsc
      | vbool a => exact absurd (by simp [isScalar]) hsc
      | vint a => exact absurd (by simp [isScalar]) hsc
      | vnone => exact absurd (by simp [isScalar]) hsc
    have hlk : pylookup T [] = some (Val.vdict sub) :=
      pylookup_of_mem_nodup T [] (Val.vdict sub) hkv (allNodupD_keys hanod)
    have hnev := noEmptyD_lookup hnoE hlk
    rw [noEmptyV] at hnev
    simp only [Bool.and_eq_true, decide_eq_true_eq] at hnev
    obtain ⟨ext, w', hext, hple, hws'⟩ :=
      dict_leaf_below (sizeOf sub) sub le_rfl hnev.2 hnev.1
    have hT0 : pathLookup T [([] : Str)] = some (Val.vdict sub) := by
      rw [pathLookup_single]
      exact hlk
    have hfull : pathLookup T ([([] : Str)] ++ ext) = some w' := by
      rw [pathLookup_append, hT0]
      exact hple
    have hfl : leafAt T (([] : Str) :: ext) = some w' :=
      leafAt_of_scalar hfull hws'
    rw [hleaf (([] : Str) :: ext) (by simp)] at hfl
    obtain ⟨k0, hk0, hsplit⟩ := seg_lookup_mem hfl
    have hk0form : k0 = [] ++ '.' :: (['.'] : List Char).intercalate ext :=
      splitOn_eq_cons hsplit hext
    rw [List.nil_append] at hk0form
    exact hnd (k0, w') hk0 (by rw [hk0form]; rfl)
  have hpoint : ∀ s : Str, pylookup (flatten_dict T) s = pylookup m s := by
    intro s
    rw [flatten_dict_lookup T hanod hnoE hdf hroot s,
      hleaf (s.splitOn '.') (splitOn_ne_nil '.' s), pylookup_seg_image m s]
  refine ⟨T, hT, ?_⟩
  apply pyEqD_of_pointwise _ _
    (show (((flatten_dict T).map Prod.fst).Nodup) from dictOf_nodupKeys (flattenItems T []))
  intro k
  rw [hpoint k]
  rcases hm : pylookup m k with _ | v
  · exact trivial
  · show pyEqV v v = true
    exact (pyEqV_scalar_iff v v (hscal (k, v) (pylookup_mem m k v hm))).mpr rfl

/-- C3 counterexample: the single-key flat map `{".b": "x"}` has scalar
values, distinct keys, and no key whose dot-path is a strict prefix of
another key's dot-path — all the hypotheses of the claim — yet
`flatten_dict (unflatten_dict m)` is `{"b": "x"}`, which is not
`==`-equal to `m`: the falsy-parent test `if parent_key` in
`flatten_dict` treats the empty first segment produced by the leading
`.` as "no parent" and drops the separator from the reassembled
key. -/
theorem c3_counterexample_leading_dot_key :
    (∀ kv ∈ [((".b").data, Val.vstr (("x").data))], isScalar kv.2 = true)
    ∧ (([((".b").data, Val.vstr (("x").data))].map Prod.fst).Nodup)
    ∧ (∀ kv1 ∈ [((".b").data, Val.vstr (("x").data))],
        ∀ kv2 ∈ [((".b").data, Val.vstr (("x").data))], kv1.1 ≠ kv2.1 →
        ¬ ((kv1.1.splitOn '.') <+: (kv2.1.splitOn '.')))
    ∧ unflatten_dict [((".b").data, Val.vstr (("x").data))]
        = some [(([] : Str), Val.vdict [((("b").data), Val.vstr (("x").data))])]
    ∧ pyEqD
        (flatten_dict [(([] : Str), Val.vdict [((("b").data), Val.vstr (("x").data))])])
        [((".b").data, Val.vstr (("x").data))] = false := by
  exact ⟨by decide, by decide, by decide, by decide, by decide⟩

/-- Witness for `c3_amended_flatten_unflatten_roundtrip`: the two-key
flat map `{"a.b": 1, "c": true}` satisfies all four hypotheses and
round-trips up to Python dictionary equality. -/
theorem c3_amended_flatten_unflatten_roundtrip_witness :
    ∃ T, unflatten_dict [(("a.b").data, Val.vint 1), (("c").data, Val.vbool true)]
        = some T
      ∧ pyEqD (flatten_dict T)
          [(("a.b").data, Val.vint 1), (("c").data, Val.vbool true)] = true :=
  c3_amended_flatten_unflatten_roundtrip
    [(("a.b").data, Val.vint 1), (("c").data, Val.vbool true)]
    (by decide) (by decide) (by decide) (by decide)
